import Mathlib

/-!
# Propositional formulas and their precedence-aware printer (`fol.hpp`)

A shallow embedding of the formula class hierarchy of `fol.hpp` and of the
`printFormula` methods, together with the reference grammar the printed text
is meant to be read back with.
-/

namespace FOL

/-! ## Data model -/

/-- The enumeration `BaseFormula::Type`. -/
inductive FormulaType where
  | T_TRUE | T_FALSE | T_ATOM | T_NOT
  | T_AND | T_OR | T_IMP | T_IFF | T_FORALL | T_EXISTS
  deriving DecidableEq, Repr

/-- The class hierarchy below `BaseFormula`: one constructor per concrete class.
A `shared_ptr` operand is a subtree. -/
inductive Formula where
  | True : Formula
  | False : Formula
  | Atom (var : String) : Formula
  | Not (op : Formula) : Formula
  | And (op1 op2 : Formula) : Formula
  | Or (op1 op2 : Formula) : Formula
  | Imp (op1 op2 : Formula) : Formula
  | Iff (op1 op2 : Formula) : Formula
  deriving DecidableEq, Repr

open FormulaType

/-- The virtual method `getType`, one override per class. -/
def getType : Formula → FormulaType
  | .True => T_TRUE
  | .False => T_FALSE
  | .Atom _ => T_ATOM
  | .Not _ => T_NOT
  | .And _ _ => T_AND
  | .Or _ _ => T_OR
  | .Imp _ _ => T_IMP
  | .Iff _ _ => T_IFF

/-- The virtual method `printFormula(ostream &)`. The stream is passed explicitly:
the argument is the text already in the sink, the result the text after the call. The
stream is taken in its default formatting state (no field width, no error flag), so
each `<<` appends its operand as it is. -/
def printFormula : Formula → String → String
  | .True, ostr => ostr ++ "true"
  | .False, ostr => ostr ++ "false"
  | .Atom var, ostr => ostr ++ var
  | .Not op, ostr =>
    let ostr1 := ostr ++ "~"
    let op_type := getType op
    let ostr2 :=
      if op_type = T_AND ∨ op_type = T_OR ∨ op_type = T_IMP ∨ op_type = T_IFF
      then ostr1 ++ "(" else ostr1
    let ostr3 := printFormula op ostr2
    if op_type = T_AND ∨ op_type = T_OR ∨ op_type = T_IMP ∨ op_type = T_IFF
    then ostr3 ++ ")" else ostr3
  | .And op1 op2, ostr =>
    let op1_type := getType op1
    let op2_type := getType op2
    let ostr1 :=
      if op1_type = T_OR ∨ op1_type = T_IMP ∨ op1_type = T_IFF
      then ostr ++ "(" else ostr
    let ostr2 := printFormula op1 ostr1
    let ostr3 :=
      if op1_type = T_OR ∨ op1_type = T_IMP ∨ op1_type = T_IFF
      then ostr2 ++ ")" else ostr2
    let ostr4 := ostr3 ++ " & "
    let ostr5 :=
      if op2_type = T_OR ∨ op2_type = T_IMP ∨ op2_type = T_IFF ∨ op2_type = T_AND
      then ostr4 ++ "(" else ostr4
    let ostr6 := printFormula op2 ostr5
    if op2_type = T_OR ∨ op2_type = T_IMP ∨ op2_type = T_IFF ∨ op2_type = T_AND
    then ostr6 ++ ")" else ostr6
  | .Or op1 op2, ostr =>
    let op1_type := getType op1
    let op2_type := getType op2
    let ostr1 :=
      if op1_type = T_IMP ∨ op1_type = T_IFF
      then ostr ++ "(" else ostr
    let ostr2 := printFormula op1 ostr1
    let ostr3 :=
      if op1_type = T_IMP ∨ op1_type = T_IFF
      then ostr2 ++ ")" else ostr2
    let ostr4 := ostr3 ++ " | "
    let ostr5 :=
      if op2_type = T_IMP ∨ op2_type = T_IFF ∨ op2_type = T_OR
      then ostr4 ++ "(" else ostr4
    let ostr6 := printFormula op2 ostr5
    if op2_type = T_IMP ∨ op2_type = T_IFF ∨ op2_type = T_OR
    then ostr6 ++ ")" else ostr6
  | .Imp op1 op2, ostr =>
    let op1_type := getType op1
    let op2_type := getType op2
    let ostr1 := if op1_type = T_IFF then ostr ++ "(" else ostr
    let ostr2 := printFormula op1 ostr1
    let ostr3 := if op1_type = T_IFF then ostr2 ++ ")" else ostr2
    let ostr4 := ostr3 ++ " => "
    let ostr5 :=
      if op2_type = T_IMP ∨ op2_type = T_IFF
      then ostr4 ++ "(" else ostr4
    let ostr6 := printFormula op2 ostr5
    if op2_type = T_IMP ∨ op2_type = T_IFF
    then ostr6 ++ ")" else ostr6
  | .Iff op1 op2, ostr =>
    -- the source also reads `op1_type` here and never tests it
    let op2_type := getType op2
    let ostr1 := printFormula op1 ostr
    let ostr2 := ostr1 ++ " <=> "
    let ostr3 := if op2_type = T_IFF then ostr2 ++ "(" else ostr2
    let ostr4 := printFormula op2 ostr3
    if op2_type = T_IFF then ostr4 ++ ")" else ostr4

/-- The accessor `Atom::getVariable`; it exists on `Atom` nodes only. -/
def getVariable : Formula → Option String
  | .Atom var => some var
  | _ => none

/-- The accessor `UnaryConjective::getOperand`; it exists on `Not` nodes only. -/
def getOperand : Formula → Option Formula
  | .Not op => some op
  | _ => none

/-- The accessor `BinaryConjective::getOperand1`; it exists on binary nodes only. -/
def getOperand1 : Formula → Option Formula
  | .And op1 _ => some op1
  | .Or op1 _ => some op1
  | .Imp op1 _ => some op1
  | .Iff op1 _ => some op1
  | _ => none

/-- The accessor `BinaryConjective::getOperand2`; it exists on binary nodes only. -/
def getOperand2 : Formula → Option Formula
  | .And _ op2 => some op2
  | .Or _ op2 => some op2
  | .Imp _ op2 => some op2
  | .Iff _ op2 => some op2
  | _ => none

/-! The free function `operator <<` of `fol.hpp` calls `printFormula` and then ends
without a `return` statement, although it is declared to return the stream: a call of
it has no defined result, and it is left out of the embedding. Printing is the method
`printFormula` itself. -/

/-- The method `printFormula` with a bound `d` on the depth of nested calls: a call
that would nest deeper than `d` below the first one gives up with `none`. -/
def printFormulaDepth : Nat → Formula → String → Option String
  | _, .True, ostr => some (ostr ++ "true")
  | _, .False, ostr => some (ostr ++ "false")
  | _, .Atom var, ostr => some (ostr ++ var)
  | 0, .Not _, _ => none
  | d + 1, .Not op, ostr =>
    let ostr1 := ostr ++ "~"
    let op_type := getType op
    let ostr2 :=
      if op_type = T_AND ∨ op_type = T_OR ∨ op_type = T_IMP ∨ op_type = T_IFF
      then ostr1 ++ "(" else ostr1
    match printFormulaDepth d op ostr2 with
    | none => none
    | some ostr3 =>
      some (if op_type = T_AND ∨ op_type = T_OR ∨ op_type = T_IMP ∨ op_type = T_IFF
        then ostr3 ++ ")" else ostr3)
  | 0, .And _ _, _ => none
  | d + 1, .And op1 op2, ostr =>
    let op1_type := getType op1
    let op2_type := getType op2
    let ostr1 :=
      if op1_type = T_OR ∨ op1_type = T_IMP ∨ op1_type = T_IFF
      then ostr ++ "(" else ostr
    match printFormulaDepth d op1 ostr1 with
    | none => none
    | some ostr2 =>
      let ostr3 :=
        if op1_type = T_OR ∨ op1_type = T_IMP ∨ op1_type = T_IFF
        then ostr2 ++ ")" else ostr2
      let ostr4 := ostr3 ++ " & "
      let ostr5 :=
        if op2_type = T_OR ∨ op2_type = T_IMP ∨ op2_type = T_IFF ∨ op2_type = T_AND
        then ostr4 ++ "(" else ostr4
      match printFormulaDepth d op2 ostr5 with
      | none => none
      | some ostr6 =>
        some (if op2_type = T_OR ∨ op2_type = T_IMP ∨ op2_type = T_IFF ∨ op2_type = T_AND
          then ostr6 ++ ")" else ostr6)
  | 0, .Or _ _, _ => none
  | d + 1, .Or op1 op2, ostr =>
    let op1_type := getType op1
    let op2_type := getType op2
    let ostr1 :=
      if op1_type = T_IMP ∨ op1_type = T_IFF
      then ostr ++ "(" else ostr
    match printFormulaDepth d op1 ostr1 with
    | none => none
    | some ostr2 =>
      let ostr3 :=
        if op1_type = T_IMP ∨ op1_type = T_IFF
        then ostr2 ++ ")" else ostr2
      let ostr4 := ostr3 ++ " | "
      let ostr5 :=
        if op2_type = T_IMP ∨ op2_type = T_IFF ∨ op2_type = T_OR
        then ostr4 ++ "(" else ostr4
      match printFormulaDepth d op2 ostr5 with
      | none => none
      | some ostr6 =>
        some (if op2_type = T_IMP ∨ op2_type = T_IFF ∨ op2_type = T_OR
          then ostr6 ++ ")" else ostr6)
  | 0, .Imp _ _, _ => none
  | d + 1, .Imp op1 op2, ostr =>
    let op1_type := getType op1
    let op2_type := getType op2
    let ostr1 := if op1_type = T_IFF then ostr ++ "(" else ostr
    match printFormulaDepth d op1 ostr1 with
    | none => none
    | some ostr2 =>
      let ostr3 := if op1_type = T_IFF then ostr2 ++ ")" else ostr2
      let ostr4 := ostr3 ++ " => "
      let ostr5 :=
        if op2_type = T_IMP ∨ op2_type = T_IFF
        then ostr4 ++ "(" else ostr4
      match printFormulaDepth d op2 ostr5 with
      | none => none
      | some ostr6 =>
        some (if op2_type = T_IMP ∨ op2_type = T_IFF
          then ostr6 ++ ")" else ostr6)
  | 0, .Iff _ _, _ => none
  | d + 1, .Iff op1 op2, ostr =>
    let op2_type := getType op2
    match printFormulaDepth d op1 ostr with
    | none => none
    | some ostr1 =>
      let ostr2 := ostr1 ++ " <=> "
      let ostr3 := if op2_type = T_IFF then ostr2 ++ "(" else ostr2
      match printFormulaDepth d op2 ostr3 with
      | none => none
      | some ostr4 => some (if op2_type = T_IFF then ostr4 ++ ")" else ostr4)

/-- The height of the tree: the number of nodes below the root on a longest path. -/
def height : Formula → Nat
  | .True => 0
  | .False => 0
  | .Atom _ => 0
  | .Not op => height op + 1
  | .And op1 op2 => max (height op1) (height op2) + 1
  | .Or op1 op2 => max (height op1) (height op2) + 1
  | .Imp op1 op2 => max (height op1) (height op2) + 1
  | .Iff op1 op2 => max (height op1) (height op2) + 1

/-! ## Nodes in memory

The operands of a node are `shared_ptr` references, so one node may be the operand of
several parents. Here a reference is the position of a node in the memory. -/

/-- A node as it lies in memory: one constructor per concrete class, the operands
being references to nodes. -/
inductive Node where
  | True : Node
  | False : Node
  | Atom (var : String) : Node
  | Not (op : Nat) : Node
  | And (op1 op2 : Nat) : Node
  | Or (op1 op2 : Nat) : Node
  | Imp (op1 op2 : Nat) : Node
  | Iff (op1 op2 : Nat) : Node
  deriving DecidableEq, Repr

/-- The virtual method `getType` of a node in memory. -/
def Node.getType : Node → FormulaType
  | .True => T_TRUE
  | .False => T_FALSE
  | .Atom _ => T_ATOM
  | .Not _ => T_NOT
  | .And _ _ => T_AND
  | .Or _ _ => T_OR
  | .Imp _ _ => T_IMP
  | .Iff _ _ => T_IFF

/-- The call `p->getType()` through a reference; a reference to no node has no type. -/
def getTypeAt (mem : List Node) (p : Nat) : Option FormulaType :=
  match mem[p]? with
  | some node => some node.getType
  | none => none

/-- The call `p->printFormula(ostr)` through a reference into the memory, with at most
`d` calls nested in one another; `none` when a reference leads to no node or the
nesting exceeds `d`. -/
def printFormulaAt : Nat → List Node → Nat → String → Option String
  | 0, _, _, _ => none
  | d + 1, mem, p, ostr =>
    match mem[p]? with
    | none => none
    | some .True => some (ostr ++ "true")
    | some .False => some (ostr ++ "false")
    | some (.Atom var) => some (ostr ++ var)
    | some (.Not op) =>
      let ostr1 := ostr ++ "~"
      match getTypeAt mem op with
      | none => none
      | some op_type =>
        let ostr2 :=
          if op_type = T_AND ∨ op_type = T_OR ∨ op_type = T_IMP ∨ op_type = T_IFF
          then ostr1 ++ "(" else ostr1
        match printFormulaAt d mem op ostr2 with
        | none => none
        | some ostr3 =>
          some (if op_type = T_AND ∨ op_type = T_OR ∨ op_type = T_IMP ∨ op_type = T_IFF
            then ostr3 ++ ")" else ostr3)
    | some (.And op1 op2) =>
      match getTypeAt mem op1, getTypeAt mem op2 with
      | some op1_type, some op2_type =>
        let ostr1 :=
          if op1_type = T_OR ∨ op1_type = T_IMP ∨ op1_type = T_IFF
          then ostr ++ "(" else ostr
        match printFormulaAt d mem op1 ostr1 with
        | none => none
        | some ostr2 =>
          let ostr3 :=
            if op1_type = T_OR ∨ op1_type = T_IMP ∨ op1_type = T_IFF
            then ostr2 ++ ")" else ostr2
          let ostr4 := ostr3 ++ " & "
          let ostr5 :=
            if op2_type = T_OR ∨ op2_type = T_IMP ∨ op2_type = T_IFF ∨ op2_type = T_AND
            then ostr4 ++ "(" else ostr4
          match printFormulaAt d mem op2 ostr5 with
          | none => none
          | some ostr6 =>
            some (if op2_type = T_OR ∨ op2_type = T_IMP ∨ op2_type = T_IFF ∨ op2_type = T_AND
              then ostr6 ++ ")" else ostr6)
      | _, _ => none
    | some (.Or op1 op2) =>
      match getTypeAt mem op1, getTypeAt mem op2 with
      | some op1_type, some op2_type =>
        let ostr1 :=
          if op1_type = T_IMP ∨ op1_type = T_IFF
          then ostr ++ "(" else ostr
        match printFormulaAt d mem op1 ostr1 with
        | none => none
        | some ostr2 =>
          let ostr3 :=
            if op1_type = T_IMP ∨ op1_type = T_IFF
            then ostr2 ++ ")" else ostr2
          let ostr4 := ostr3 ++ " | "
          let ostr5 :=
            if op2_type = T_IMP ∨ op2_type = T_IFF ∨ op2_type = T_OR
            then ostr4 ++ "(" else ostr4
          match printFormulaAt d mem op2 ostr5 with
          | none => none
          | some ostr6 =>
            some (if op2_type = T_IMP ∨ op2_type = T_IFF ∨ op2_type = T_OR
              then ostr6 ++ ")" else ostr6)
      | _, _ => none
    | some (.Imp op1 op2) =>
      match getTypeAt mem op1, getTypeAt mem op2 with
      | some op1_type, some op2_type =>
        let ostr1 := if op1_type = T_IFF then ostr ++ "(" else ostr
        match printFormulaAt d mem op1 ostr1 with
        | none => none
        | some ostr2 =>
          let ostr3 := if op1_type = T_IFF then ostr2 ++ ")" else ostr2
          let ostr4 := ostr3 ++ " => "
          let ostr5 :=
            if op2_type = T_IMP ∨ op2_type = T_IFF
            then ostr4 ++ "(" else ostr4
          match printFormulaAt d mem op2 ostr5 with
          | none => none
          | some ostr6 =>
            some (if op2_type = T_IMP ∨ op2_type = T_IFF
              then ostr6 ++ ")" else ostr6)
      | _, _ => none
    | some (.Iff op1 op2) =>
      match getTypeAt mem op1, getTypeAt mem op2 with
      | some _, some op2_type =>
        match printFormulaAt d mem op1 ostr with
        | none => none
        | some ostr1 =>
          let ostr2 := ostr1 ++ " <=> "
          let ostr3 := if op2_type = T_IFF then ostr2 ++ "(" else ostr2
          match printFormulaAt d mem op2 ostr3 with
          | none => none
          | some ostr4 => some (if op2_type = T_IFF then ostr4 ++ ")" else ostr4)
      | _, _ => none

/-- The tree a reference stands for: every reference replaced by the tree of the node
it leads to, shared nodes being repeated; followed through at most `d` nodes in a
row. -/
def expand : Nat → List Node → Nat → Option Formula
  | 0, _, _ => none
  | d + 1, mem, p =>
    match mem[p]? with
    | none => none
    | some .True => some .True
    | some .False => some .False
    | some (.Atom var) => some (.Atom var)
    | some (.Not op) =>
      match expand d mem op with
      | some f => some (.Not f)
      | none => none
    | some (.And op1 op2) =>
      match expand d mem op1, expand d mem op2 with
      | some f1, some f2 => some (.And f1 f2)
      | _, _ => none
    | some (.Or op1 op2) =>
      match expand d mem op1, expand d mem op2 with
      | some f1, some f2 => some (.Or f1 f2)
      | _, _ => none
    | some (.Imp op1 op2) =>
      match expand d mem op1, expand d mem op2 with
      | some f1, some f2 => some (.Imp f1 f2)
      | _, _ => none
    | some (.Iff op1 op2) =>
      match expand d mem op1, expand d mem op2 with
      | some f1, some f2 => some (.Iff f1 f2)
      | _, _ => none

/-- The references a node holds. -/
def Node.operands : Node → List Nat
  | .Not op => [op]
  | .And op1 op2 => [op1, op2]
  | .Or op1 op2 => [op1, op2]
  | .Imp op1 op2 => [op1, op2]
  | .Iff op1 op2 => [op1, op2]
  | _ => []

/-- Every node refers to nodes built before it only: the memory holds no null or
dangling reference and no cycle. -/
def builtBottomUp (mem : List Node) : Prop :=
  ∀ (p : Nat) (node : Node), mem[p]? = some node → ∀ q ∈ node.operands, q < p

/-! ## The reference grammar

The reader of the printed text is not part of `fol.hpp`; it is described by the
specification only (token set, precedence table, left associativity). -/

/-- Modelled from the spec: the token set of the printed text, `true`, `false`,
atom names, `~`, `&`, `|`, `=>`, `<=>`, `(` and `)`. The lexer is missing from the
sources. -/
inductive Token where
  | TRUE | FALSE
  | ATOM (name : String)
  | NOT | AND | OR | IMP | IFF
  | LPAREN | RPAREN
  deriving DecidableEq, Repr

/-- Modelled from the spec: the characters an atom name (an identifier) is made of:
letters, digits and the underscore. The lexer is missing from the sources. -/
def isIdChar (c : Char) : Bool := c.isAlphanum || c == '_'

/-- Modelled from the spec: a lexically valid atom name is a non-empty run of
identifier characters other than the two keywords. The lexer is missing from the
sources. -/
def validName (s : String) : Bool :=
  !s.data.isEmpty && s.data.all isIdChar && s != "true" && s != "false"

/-- Modelled from the spec: the token of a maximal run of identifier characters:
a keyword or an atom name. The lexer is missing from the sources. -/
def wordToken (w : List Char) : Token :=
  if w = "true".data then .TRUE
  else if w = "false".data then .FALSE
  else .ATOM (String.mk w)

/-- Modelled from the spec: the tokens of the pending word `acc` (kept in reverse):
none when no identifier character is pending. The lexer is missing from the sources. -/
def flush (acc : List Char) : List Token :=
  if acc = [] then [] else [wordToken acc.reverse]

/-- Modelled from the spec: the states of the lexer: inside or between words (with
the identifier characters read since the last token boundary, in reverse), or inside
one of the two-part operators, after `=`, after `<`, after `<=`. The lexer is missing
from the sources. -/
inductive LexState where
  | word (acc : List Char)
  | eq
  | lt
  | lteq
  deriving DecidableEq, Repr

/-- Modelled from the spec: one step of the lexer: the next state and the tokens
completed by the character read. White space separates tokens and is dropped; a
character outside the token set is a lexical error. The lexer is missing from the
sources. -/
def lexStep : LexState → Char → Option (LexState × List Token)
  | .word acc, c =>
    if isIdChar c then some (.word (c :: acc), [])
    else if c.isWhitespace then some (.word [], flush acc)
    else if c = '~' then some (.word [], flush acc ++ [.NOT])
    else if c = '(' then some (.word [], flush acc ++ [.LPAREN])
    else if c = ')' then some (.word [], flush acc ++ [.RPAREN])
    else if c = '&' then some (.word [], flush acc ++ [.AND])
    else if c = '|' then some (.word [], flush acc ++ [.OR])
    else if c = '=' then some (.eq, flush acc)
    else if c = '<' then some (.lt, flush acc)
    else none
  | .eq, c => if c = '>' then some (.word [], [.IMP]) else none
  | .lt, c => if c = '=' then some (.lteq, []) else none
  | .lteq, c => if c = '>' then some (.word [], [.IFF]) else none

/-- Modelled from the spec: the lexer run from a state over a text; at the end of the
text the pending word is closed, and an unfinished operator is a lexical error. The
lexer is missing from the sources. -/
def lexRun : LexState → List Char → Option (List Token)
  | .word acc, [] => some (flush acc)
  | _, [] => none
  | st, c :: cs =>
    match lexStep st c with
    | some (st1, out) => (lexRun st1 cs).map (fun ts => out ++ ts)
    | none => none

/-- Modelled from the spec: the token sequence of a text. The lexer is missing from
the sources. -/
def tokenize (s : List Char) : Option (List Token) := lexRun (.word []) s

/-- Modelled from the spec: the precedence rank of a binary operator token
(`&` 2, `|` 3, `=>` 4, `<=>` 5; a lower rank binds tighter). The parser is missing
from the sources. -/
def binRank : Token → Option Nat
  | .AND => some 2
  | .OR => some 3
  | .IMP => some 4
  | .IFF => some 5
  | _ => none

/-- Modelled from the spec: the node a binary operator token builds. The parser is
missing from the sources. -/
def mkBin : Token → Formula → Formula → Formula
  | .OR, l, r => .Or l r
  | .IMP, l, r => .Imp l r
  | .IFF, l, r => .Iff l r
  | _, l, r => .And l r

mutual
/-- Modelled from the spec: a primary of the reference grammar: a constant, an atom,
a negation `~` applied to a primary (prefix, binding tightest), or a parenthesised
expression. The first argument bounds the recursion depth. The parser is missing from
the sources. -/
def parsePrimary : Nat → List Token → Option (Formula × List Token)
  | 0, _ => none
  | _ + 1, [] => none
  | n + 1, t :: ts =>
    match t with
    | .TRUE => some (.True, ts)
    | .FALSE => some (.False, ts)
    | .ATOM name => some (.Atom name, ts)
    | .NOT =>
      match parsePrimary n ts with
      | some (f, rest) => some (.Not f, rest)
      | none => none
    | .LPAREN =>
      match parseExpr n 5 ts with
      | some (f, .RPAREN :: rest) => some (f, rest)
      | _ => none
    | _ => none
/-- Modelled from the spec: an expression whose unparenthesised top-level operators
have rank at most `maxRank`: a primary followed by operator/operand pairs
(precedence climbing). The parser is missing from the sources. -/
def parseExpr : Nat → Nat → List Token → Option (Formula × List Token)
  | 0, _, _ => none
  | n + 1, maxRank, ts =>
    match parsePrimary n ts with
    | some (lhs, rest) => parseLoop n maxRank lhs rest
    | none => none
/-- Modelled from the spec: the operator loop: while the next token is a binary
operator of rank `p ≤ maxRank`, its right operand is an expression of rank below `p`
and the node built becomes the new left operand (left associativity). The parser is
missing from the sources. -/
def parseLoop : Nat → Nat → Formula → List Token → Option (Formula × List Token)
  | 0, _, _, _ => none
  | _ + 1, _, lhs, [] => some (lhs, [])
  | n + 1, maxRank, lhs, t :: ts =>
    match binRank t with
    | some p =>
      if p ≤ maxRank then
        match parseExpr n (p - 1) ts with
        | some (rhs, rest) => parseLoop n maxRank (mkBin t lhs rhs) rest
        | none => none
      else some (lhs, t :: ts)
    | none => some (lhs, t :: ts)
end

/-- Modelled from the spec: a token sequence is read as one whole expression, with
recursion depth at most `fuel`. The parser is missing from the sources. -/
def parseTokensFuel (fuel : Nat) (ts : List Token) : Option Formula :=
  match parseExpr fuel 5 ts with
  | some (f, []) => some f
  | _ => none

/-- Modelled from the spec: the reference parser of the printed text: lexing, then
one whole expression; the recursion bound grows with the input and is never the
reason of a rejection. The parser is missing from the sources. -/
def parse (s : String) : Option Formula :=
  match tokenize s.data with
  | some ts => parseTokensFuel (4 * ts.length + 2) ts
  | none => none

/-! ## Auxiliary notions used by the proofs -/

/-- Precedence rank of the top connective: 0 for constants and atoms, 1 for `Not`,
then `And` 2, `Or` 3, `Imp` 4, `Iff` 5. -/
def rank : Formula → Nat
  | .True => 0
  | .False => 0
  | .Atom _ => 0
  | .Not _ => 1
  | .And _ _ => 2
  | .Or _ _ => 3
  | .Imp _ _ => 4
  | .Iff _ _ => 5

/-- A text, in parentheses when `b` holds. -/
def wrap (b : Bool) (s : List Char) : List Char :=
  if b then '(' :: (s ++ [')']) else s

/-- The characters `printFormula` appends, by the precedence table: an operand is
wrapped when its rank exceeds the bound of its position. -/
def chars : Formula → List Char
  | .True => ['t', 'r', 'u', 'e']
  | .False => ['f', 'a', 'l', 's', 'e']
  | .Atom var => var.data
  | .Not op => '~' :: wrap (decide (1 < rank op)) (chars op)
  | .And op1 op2 =>
    wrap (decide (2 < rank op1)) (chars op1) ++ [' ', '&', ' ']
      ++ wrap (decide (1 < rank op2)) (chars op2)
  | .Or op1 op2 =>
    wrap (decide (3 < rank op1)) (chars op1) ++ [' ', '|', ' ']
      ++ wrap (decide (2 < rank op2)) (chars op2)
  | .Imp op1 op2 =>
    wrap (decide (4 < rank op1)) (chars op1) ++ [' ', '=', '>', ' ']
      ++ wrap (decide (3 < rank op2)) (chars op2)
  | .Iff op1 op2 =>
    wrap (decide (5 < rank op1)) (chars op1) ++ [' ', '<', '=', '>', ' ']
      ++ wrap (decide (4 < rank op2)) (chars op2)

/-- A token sequence, between parenthesis tokens when `b` holds. -/
def wrapT (b : Bool) (ts : List Token) : List Token :=
  if b then Token.LPAREN :: (ts ++ [Token.RPAREN]) else ts

/-- The token sequence of the printed text, by the precedence table. -/
def toks : Formula → List Token
  | .True => [.TRUE]
  | .False => [.FALSE]
  | .Atom var => [.ATOM var]
  | .Not op => .NOT :: wrapT (decide (1 < rank op)) (toks op)
  | .And op1 op2 =>
    wrapT (decide (2 < rank op1)) (toks op1) ++ .AND :: wrapT (decide (1 < rank op2)) (toks op2)
  | .Or op1 op2 =>
    wrapT (decide (3 < rank op1)) (toks op1) ++ .OR :: wrapT (decide (2 < rank op2)) (toks op2)
  | .Imp op1 op2 =>
    wrapT (decide (4 < rank op1)) (toks op1) ++ .IMP :: wrapT (decide (3 < rank op2)) (toks op2)
  | .Iff op1 op2 =>
    wrapT (decide (5 < rank op1)) (toks op1) ++ .IFF :: wrapT (decide (4 < rank op2)) (toks op2)

/-- Every atom name of the formula is lexically valid. -/
def goodNames : Formula → Bool
  | .True => true
  | .False => true
  | .Atom var => validName var
  | .Not op => goodNames op
  | .And op1 op2 => goodNames op1 && goodNames op2
  | .Or op1 op2 => goodNames op1 && goodNames op2
  | .Imp op1 op2 => goodNames op1 && goodNames op2
  | .Iff op1 op2 => goodNames op1 && goodNames op2

/-- The text starts with an identifier character. -/
def startsId : List Char → Bool
  | [] => false
  | c :: _ => isIdChar c

/-- A recursion depth that suffices to read the formula back as a primary. -/
def fuelP : Formula → Nat
  | .True => 1
  | .False => 1
  | .Atom _ => 1
  | .Not op => fuelP op + 1
  | .And op1 op2 => fuelP op1 + fuelP op2 + 4
  | .Or op1 op2 => fuelP op1 + fuelP op2 + 4
  | .Imp op1 op2 => fuelP op1 + fuelP op2 + 4
  | .Iff op1 op2 => fuelP op1 + fuelP op2 + 4

/-- The token sequence does not start with a binary operator of rank below `p`. -/
def noLowOp (p : Nat) : List Token → Prop
  | [] => True
  | t :: _ => ∀ q, binRank t = some q → p ≤ q

/-- Reading back as a primary: the formula, wrapped when it is a binary node. -/
def PrimOK (f : Formula) : Prop :=
  ∀ n rest, fuelP f ≤ n →
    parsePrimary n (wrapT (decide (1 < rank f)) (toks f) ++ rest) = some (f, rest)

/-- Reading back as an operand of bound `b` inside an expression of bound `m`: the
operator loop resumes with the formula as its left operand. -/
def ExprOK (f : Formula) : Prop :=
  ∀ n k m b rest res, 1 ≤ b → b ≤ m → (rank f ≤ b → noLowOp (rank f) rest) →
    parseLoop k m f rest = some res → k + fuelP f ≤ n →
    parseExpr n m (wrapT (decide (b < rank f)) (toks f) ++ rest) = some res

/-- The node is one of the binary connectives `And`, `Or`, `Imp`, `Iff`. -/
def isBinary : Formula → Bool
  | .And _ _ => true
  | .Or _ _ => true
  | .Imp _ _ => true
  | .Iff _ _ => true
  | _ => false

/-- A rendering, between `(` and `)` when `b` holds. -/
def parenthesized (b : Bool) (s : String) : String :=
  if b then "(" ++ s ++ ")" else s

/-- The pending word of a lexer state is made of identifier characters. -/
def LexState.ok : LexState → Prop
  | .word acc => ∀ c ∈ acc, isIdChar c = true
  | _ => True

/-- The text is not empty and neither its first nor its last character satisfies `p`. -/
def edgesFree (p : Char → Bool) (s : List Char) : Prop :=
  s ≠ [] ∧ (∀ c, s.head? = some c → p c = false) ∧ (∀ c, s.getLast? = some c → p c = false)

/-- The characters of the fixed tokens and separators of the printed text. -/
def fixedChars : List Char :=
  ['t', 'r', 'u', 'e', 'f', 'a', 'l', 's', '~', '(', ')', ' ', '&', '|', '=', '>', '<']

/-- The binary operator symbols of the printed text. -/
def opSymbols : List (List Char) :=
  [['&'], ['|'], ['=', '>'], ['<', '=', '>']]

/-- Every space of the text is the space in front of or behind an operator symbol that
has a space on its other side too. -/
def spacesAroundOps (s : List Char) : Prop :=
  ∀ pre post, s = pre ++ ' ' :: post →
    (∃ op ∈ opSymbols, ∃ post1, post = op ++ ' ' :: post1) ∨
    (∃ op ∈ opSymbols, ∃ pre1, pre = pre1 ++ ' ' :: op)

/-- Every occurrence of the character `x` in the text is immediately followed by a
character that is not a space. -/
def followedByNonSpace (x : Char) (s : List Char) : Prop :=
  ∀ pre post, s = pre ++ x :: post → ∃ c rest, post = c :: rest ∧ c ≠ ' '

/-- Number of opening parenthesis tokens. -/
def countLP : List Token → Nat
  | [] => 0
  | .LPAREN :: ts => countLP ts + 1
  | _ :: ts => countLP ts

/-- The atom names carried by a token sequence, in order. -/
def atomNames : List Token → List String
  | [] => []
  | .ATOM name :: ts => name :: atomNames ts
  | _ :: ts => atomNames ts

/-- The atom names of a formula, left to right. -/
def atoms : Formula → List String
  | .True => []
  | .False => []
  | .Atom var => [var]
  | .Not op => atoms op
  | .And op1 op2 => atoms op1 ++ atoms op2
  | .Or op1 op2 => atoms op1 ++ atoms op2
  | .Imp op1 op2 => atoms op1 ++ atoms op2
  | .Iff op1 op2 => atoms op1 ++ atoms op2

/-- Number of opening parentheses the printer emits for the formula as an operand of
bound `b`. -/
def need (b : Nat) (f : Formula) : Nat :=
  countLP (wrapT (decide (b < rank f)) (toks f))

/-- The node is a leaf: a constant or an atom. -/
def isLeaf : Formula → Bool
  | .True => true
  | .False => true
  | .Atom _ => true
  | _ => false

/-- Number of binary nodes (`And`, `Or`, `Imp`, `Iff`) of the tree. -/
def binaryNodes : Formula → Nat
  | .True => 0
  | .False => 0
  | .Atom _ => 0
  | .Not op => binaryNodes op
  | .And op1 op2 => binaryNodes op1 + binaryNodes op2 + 1
  | .Or op1 op2 => binaryNodes op1 + binaryNodes op2 + 1
  | .Imp op1 op2 => binaryNodes op1 + binaryNodes op2 + 1
  | .Iff op1 op2 => binaryNodes op1 + binaryNodes op2 + 1

/-- The parentheses of the text are balanced: as many `(` as `)`, and no beginning of
the text holds more `)` than `(`. -/
def balanced (s : List Char) : Prop :=
  s.count '(' = s.count ')' ∧
    ∀ pre post, s = pre ++ post → pre.count ')' ≤ pre.count '('

/-! ## The printer appends `chars` -/

theorem type_gt1 (f : Formula) :
    (getType f = T_AND ∨ getType f = T_OR ∨ getType f = T_IMP ∨ getType f = T_IFF)
      ↔ 1 < rank f := by
  cases f <;> simp [getType, rank]

theorem type_gt1b (f : Formula) :
    (getType f = T_OR ∨ getType f = T_IMP ∨ getType f = T_IFF ∨ getType f = T_AND)
      ↔ 1 < rank f := by
  cases f <;> simp [getType, rank]

theorem type_gt2 (f : Formula) :
    (getType f = T_OR ∨ getType f = T_IMP ∨ getType f = T_IFF) ↔ 2 < rank f := by
  cases f <;> simp [getType, rank]

theorem type_gt2b (f : Formula) :
    (getType f = T_IMP ∨ getType f = T_IFF ∨ getType f = T_OR) ↔ 2 < rank f := by
  cases f <;> simp [getType, rank]

theorem type_gt3 (f : Formula) :
    (getType f = T_IMP ∨ getType f = T_IFF) ↔ 3 < rank f := by
  cases f <;> simp [getType, rank]

theorem type_gt4 (f : Formula) : getType f = T_IFF ↔ 4 < rank f := by
  cases f <;> simp [getType, rank]

theorem rank_le_five (f : Formula) : rank f ≤ 5 := by
  cases f <;> simp [rank]

theorem printFormula_data (f : Formula) :
    ∀ ostr : String, (printFormula f ostr).data = ostr.data ++ chars f := by
  induction f with
  | True => intro ostr; simp [printFormula, chars]
  | False => intro ostr; simp [printFormula, chars]
  | Atom var => intro ostr; simp [printFormula, chars]
  | Not op ih =>
    intro ostr
    simp only [printFormula, chars, type_gt1]
    by_cases h : 1 < rank op <;> simp [h, ih, wrap]
  | And op1 op2 ih1 ih2 =>
    intro ostr
    simp only [printFormula, chars, type_gt2, type_gt1b]
    by_cases h1 : 2 < rank op1 <;> by_cases h2 : 1 < rank op2 <;> simp [h1, h2, ih1, ih2, wrap]
  | Or op1 op2 ih1 ih2 =>
    intro ostr
    simp only [printFormula, chars, type_gt3, type_gt2b]
    by_cases h1 : 3 < rank op1 <;> by_cases h2 : 2 < rank op2 <;> simp [h1, h2, ih1, ih2, wrap]
  | Imp op1 op2 ih1 ih2 =>
    intro ostr
    simp only [printFormula, chars, type_gt3]
    simp only [type_gt4]
    by_cases h1 : 4 < rank op1 <;> by_cases h2 : 3 < rank op2 <;> simp [h1, h2, ih1, ih2, wrap]
  | Iff op1 op2 ih1 ih2 =>
    intro ostr
    have h5 : ¬ 5 < rank op1 := by have := rank_le_five op1; omega
    simp only [printFormula, chars, type_gt4]
    by_cases h2 : 4 < rank op2 <;> simp [h5, h2, ih1, ih2, wrap]

/-! ## Lexing the printed text -/

theorem flush_nil : flush [] = [] := by simp [flush]

theorem lexRun_word (w : List Char) :
    ∀ acc rest, (∀ c ∈ w, isIdChar c = true) →
      lexRun (.word acc) (w ++ rest) = lexRun (.word (w.reverse ++ acc)) rest := by
  induction w with
  | nil => intro acc rest _; simp
  | cons c w ih =>
    intro acc rest h
    have hc : isIdChar c = true := h c (by simp)
    have hw : ∀ d ∈ w, isIdChar d = true := fun d hd => h d (by simp [hd])
    simp [lexRun, lexStep, hc, ih (c :: acc) rest hw]

theorem lexRun_boundary (acc rest : List Char) (h : startsId rest = false) :
    lexRun (.word acc) rest = (lexRun (.word []) rest).map (fun ts => flush acc ++ ts) := by
  cases rest with
  | nil => simp [lexRun, flush_nil]
  | cons c cs =>
    have hc : isIdChar c = false := by simpa [startsId] using h
    simp only [lexRun, lexStep, hc, Bool.false_eq_true, if_false]
    split_ifs <;> simp [flush_nil, Option.map_map, Function.comp_def]

theorem lexRun_tilde (s : List Char) :
    lexRun (.word []) ('~' :: s) = (lexRun (.word []) s).map (fun ts => Token.NOT :: ts) := by
  have h1 : isIdChar '~' = false := by decide
  have h2 : Char.isWhitespace '~' = false := by decide
  simp [lexRun, lexStep, flush_nil, h1, h2]

theorem lexRun_lparen (s : List Char) :
    lexRun (.word []) ('(' :: s) = (lexRun (.word []) s).map (fun ts => Token.LPAREN :: ts) := by
  have h1 : isIdChar '(' = false := by decide
  have h2 : Char.isWhitespace '(' = false := by decide
  simp [lexRun, lexStep, flush_nil, h1, h2]

theorem lexRun_rparen (s : List Char) :
    lexRun (.word []) (')' :: s) = (lexRun (.word []) s).map (fun ts => Token.RPAREN :: ts) := by
  have h1 : isIdChar ')' = false := by decide
  have h2 : Char.isWhitespace ')' = false := by decide
  simp [lexRun, lexStep, flush_nil, h1, h2]

theorem lexRun_space (s : List Char) :
    lexRun (.word []) (' ' :: s) = lexRun (.word []) s := by
  have h1 : isIdChar ' ' = false := by decide
  have h2 : Char.isWhitespace ' ' = true := by decide
  simp [lexRun, lexStep, flush_nil, h1, h2]

theorem lexRun_and (s : List Char) :
    lexRun (.word []) ('&' :: s) = (lexRun (.word []) s).map (fun ts => Token.AND :: ts) := by
  have h1 : isIdChar '&' = false := by decide
  have h2 : Char.isWhitespace '&' = false := by decide
  simp [lexRun, lexStep, flush_nil, h1, h2]

theorem lexRun_or (s : List Char) :
    lexRun (.word []) ('|' :: s) = (lexRun (.word []) s).map (fun ts => Token.OR :: ts) := by
  have h1 : isIdChar '|' = false := by decide
  have h2 : Char.isWhitespace '|' = false := by decide
  simp [lexRun, lexStep, flush_nil, h1, h2]

theorem lexRun_imp (s : List Char) :
    lexRun (.word []) ('=' :: '>' :: s)
      = (lexRun (.word []) s).map (fun ts => Token.IMP :: ts) := by
  have h1 : isIdChar '=' = false := by decide
  have h2 : Char.isWhitespace '=' = false := by decide
  simp [lexRun, lexStep, flush_nil, h1, h2, Function.comp_def]

theorem lexRun_iff (s : List Char) :
    lexRun (.word []) ('<' :: '=' :: '>' :: s)
      = (lexRun (.word []) s).map (fun ts => Token.IFF :: ts) := by
  have h1 : isIdChar '<' = false := by decide
  have h2 : Char.isWhitespace '<' = false := by decide
  simp [lexRun, lexStep, flush_nil, h1, h2, Function.comp_def]

theorem startsId_rparen (s : List Char) : startsId (')' :: s) = false := by
  have h1 : isIdChar ')' = false := by decide
  simp [startsId, h1]

theorem startsId_space (s t : List Char) : startsId (' ' :: s ++ t) = false := by
  have h1 : isIdChar ' ' = false := by decide
  simp [startsId, h1]

/-- A run of identifier characters in front of a token boundary is one word. -/
theorem lexRun_ident (w rest : List Char) (ts : List Token) (hne : w ≠ [])
    (hw : ∀ c ∈ w, isIdChar c = true) (hrest : startsId rest = false)
    (h : lexRun (.word []) rest = some ts) :
    lexRun (.word []) (w ++ rest) = some (wordToken w :: ts) := by
  rw [lexRun_word w [] rest hw, lexRun_boundary _ rest hrest, h]
  simp [flush, hne]

theorem wordToken_valid (var : String) (h : validName var = true) :
    var.data ≠ [] ∧ (∀ c ∈ var.data, isIdChar c = true) ∧ wordToken var.data = Token.ATOM var := by
  simp only [validName, Bool.and_eq_true, Bool.not_eq_true', List.isEmpty_eq_false,
    List.all_eq_true, bne_iff_ne, ne_eq] at h
  obtain ⟨⟨⟨h1, h2⟩, h3⟩, h4⟩ := h
  refine ⟨h1, h2, ?_⟩
  have e3 : var.data ≠ "true".data := fun e => h3 (String.ext e)
  have e4 : var.data ≠ "false".data := fun e => h4 (String.ext e)
  simp [wordToken, e3, e4]

/-- Lexing a wrapped operand, given the lexing of the operand itself. -/
theorem lexRun_wrap (f : Formula) (b : Bool)
    (ih : ∀ rest ts, startsId rest = false → lexRun (.word []) rest = some ts →
      lexRun (.word []) (chars f ++ rest) = some (toks f ++ ts))
    (rest : List Char) (ts : List Token) (hrest : startsId rest = false)
    (h : lexRun (.word []) rest = some ts) :
    lexRun (.word []) (wrap b (chars f) ++ rest) = some (wrapT b (toks f) ++ ts) := by
  cases b with
  | false => simpa [wrap, wrapT] using ih rest ts hrest h
  | true =>
    have h1 : lexRun (.word []) (')' :: rest) = some (Token.RPAREN :: ts) := by
      rw [lexRun_rparen, h]; rfl
    have h2 := ih (')' :: rest) (Token.RPAREN :: ts) (startsId_rparen rest) h1
    have e1 : wrap true (chars f) ++ rest = '(' :: (chars f ++ ')' :: rest) := by simp [wrap]
    have e2 : wrapT true (toks f) ++ ts = Token.LPAREN :: (toks f ++ Token.RPAREN :: ts) := by
      simp [wrapT]
    rw [e1, e2, lexRun_lparen, h2]
    rfl

theorem lex_chars (f : Formula) :
    goodNames f = true → ∀ rest ts, startsId rest = false → lexRun (.word []) rest = some ts →
      lexRun (.word []) (chars f ++ rest) = some (toks f ++ ts) := by
  induction f with
  | True =>
    intro _ rest ts hrest h
    exact lexRun_ident ['t', 'r', 'u', 'e'] rest ts (by simp) (by decide) hrest h
  | False =>
    intro _ rest ts hrest h
    exact lexRun_ident ['f', 'a', 'l', 's', 'e'] rest ts (by simp) (by decide) hrest h
  | Atom var =>
    intro hg rest ts hrest h
    obtain ⟨h1, h2, h3⟩ := wordToken_valid var hg
    have := lexRun_ident var.data rest ts h1 h2 hrest h
    simpa [chars, toks, h3] using this
  | Not op ih =>
    intro hg rest ts hrest h
    have := lexRun_wrap op (decide (1 < rank op)) (ih hg) rest ts hrest h
    simp only [chars, toks, List.cons_append, lexRun_tilde, this]
    rfl
  | And op1 op2 ih1 ih2 =>
    intro hg rest ts hrest h
    simp only [goodNames, Bool.and_eq_true] at hg
    have h2 := lexRun_wrap op2 (decide (1 < rank op2)) (ih2 hg.2) rest ts hrest h
    have h3 : lexRun (.word []) ([' ', '&', ' '] ++ (wrap (decide (1 < rank op2)) (chars op2) ++ rest))
        = some (Token.AND :: (wrapT (decide (1 < rank op2)) (toks op2) ++ ts)) := by
      simp only [List.cons_append, List.nil_append, lexRun_space, lexRun_and, h2]
      rfl
    have h1 := lexRun_wrap op1 (decide (2 < rank op1)) (ih1 hg.1) _ _ (startsId_space _ _) h3
    simpa [chars, toks] using h1
  | Or op1 op2 ih1 ih2 =>
    intro hg rest ts hrest h
    simp only [goodNames, Bool.and_eq_true] at hg
    have h2 := lexRun_wrap op2 (decide (2 < rank op2)) (ih2 hg.2) rest ts hrest h
    have h3 : lexRun (.word []) ([' ', '|', ' '] ++ (wrap (decide (2 < rank op2)) (chars op2) ++ rest))
        = some (Token.OR :: (wrapT (decide (2 < rank op2)) (toks op2) ++ ts)) := by
      simp only [List.cons_append, List.nil_append, lexRun_space, lexRun_or, h2]
      rfl
    have h1 := lexRun_wrap op1 (decide (3 < rank op1)) (ih1 hg.1) _ _ (startsId_space _ _) h3
    simpa [chars, toks] using h1
  | Imp op1 op2 ih1 ih2 =>
    intro hg rest ts hrest h
    simp only [goodNames, Bool.and_eq_true] at hg
    have h2 := lexRun_wrap op2 (decide (3 < rank op2)) (ih2 hg.2) rest ts hrest h
    have h3 : lexRun (.word [])
        ([' ', '=', '>', ' '] ++ (wrap (decide (3 < rank op2)) (chars op2) ++ rest))
        = some (Token.IMP :: (wrapT (decide (3 < rank op2)) (toks op2) ++ ts)) := by
      simp only [List.cons_append, List.nil_append, lexRun_space, lexRun_imp, h2]
      rfl
    have h1 := lexRun_wrap op1 (decide (4 < rank op1)) (ih1 hg.1) _ _ (startsId_space _ _) h3
    simpa [chars, toks] using h1
  | Iff op1 op2 ih1 ih2 =>
    intro hg rest ts hrest h
    simp only [goodNames, Bool.and_eq_true] at hg
    have h2 := lexRun_wrap op2 (decide (4 < rank op2)) (ih2 hg.2) rest ts hrest h
    have h3 : lexRun (.word [])
        ([' ', '<', '=', '>', ' '] ++ (wrap (decide (4 < rank op2)) (chars op2) ++ rest))
        = some (Token.IFF :: (wrapT (decide (4 < rank op2)) (toks op2) ++ ts)) := by
      simp only [List.cons_append, List.nil_append, lexRun_space, lexRun_iff, h2]
      rfl
    have h1 := lexRun_wrap op1 (decide (5 < rank op1)) (ih1 hg.1) _ _ (startsId_space _ _) h3
    simpa [chars, toks] using h1

theorem tokenize_chars (f : Formula) (hg : goodNames f = true) :
    tokenize (chars f) = some (toks f) := by
  have := lex_chars f hg [] [] (by decide) (by simp [lexRun, flush_nil])
  simpa [tokenize] using this

/-! ## The parser: more fuel never changes a result -/

theorem parse_mono_succ (n : Nat) :
    (∀ ts r, parsePrimary n ts = some r → parsePrimary (n + 1) ts = some r) ∧
    (∀ m ts r, parseExpr n m ts = some r → parseExpr (n + 1) m ts = some r) ∧
    (∀ m lhs ts r, parseLoop n m lhs ts = some r → parseLoop (n + 1) m lhs ts = some r) := by
  induction n with
  | zero => simp [parsePrimary, parseExpr, parseLoop]
  | succ n ih =>
    obtain ⟨ihP, ihE, ihL⟩ := ih
    refine ⟨?_, ?_, ?_⟩
    · intro ts r h
      cases ts with
      | nil => simp [parsePrimary] at h
      | cons t ts =>
        cases t <;> simp only [parsePrimary] at h ⊢ <;> try exact h
        · cases hp : parsePrimary n ts with
          | none => simp [hp] at h
          | some fr => simp only [ihP ts fr hp]; simpa [hp] using h
        · cases hp : parseExpr n 5 ts with
          | none => simp [hp] at h
          | some fr => simp only [ihE 5 ts fr hp]; simpa [hp] using h
    · intro m ts r h
      simp only [parseExpr] at h ⊢
      cases hp : parsePrimary n ts with
      | none => simp [hp] at h
      | some fr =>
        simp only [hp] at h
        simp only [ihP ts fr hp]
        exact ihL m _ _ r h
    · intro m lhs ts r h
      cases ts with
      | nil => simpa [parseLoop] using h
      | cons t ts =>
        simp only [parseLoop] at h ⊢
        cases hb : binRank t with
        | none => simpa [hb] using h
        | some p =>
          simp only [hb] at h ⊢
          by_cases hp : p ≤ m
          · simp only [hp, if_true] at h ⊢
            cases he : parseExpr n (p - 1) ts with
            | none => simp [he] at h
            | some fr =>
              simp only [he] at h
              simp only [ihE _ ts fr he]
              exact ihL m _ _ r h
          · simpa [hp] using h

theorem parsePrimary_mono {n k : Nat} (hk : n ≤ k) {ts : List Token} {r : Formula × List Token}
    (h : parsePrimary n ts = some r) : parsePrimary k ts = some r := by
  induction hk with
  | refl => exact h
  | step _ ih => exact (parse_mono_succ _).1 ts r ih

theorem parseExpr_mono {n k : Nat} (hk : n ≤ k) {m : Nat} {ts : List Token}
    {r : Formula × List Token} (h : parseExpr n m ts = some r) : parseExpr k m ts = some r := by
  induction hk with
  | refl => exact h
  | step _ ih => exact (parse_mono_succ _).2.1 m ts r ih

theorem parseLoop_mono {n k : Nat} (hk : n ≤ k) {m : Nat} {lhs : Formula} {ts : List Token}
    {r : Formula × List Token} (h : parseLoop n m lhs ts = some r) :
    parseLoop k m lhs ts = some r := by
  induction hk with
  | refl => exact h
  | step _ ih => exact (parse_mono_succ _).2.2 m lhs ts r ih

/-! ## The parser reads the printed token sequence back -/

theorem parseLoop_stop (k m : Nat) (f : Formula) (rest : List Token)
    (h : noLowOp (m + 1) rest) : parseLoop (k + 1) m f rest = some (f, rest) := by
  cases rest with
  | nil => simp [parseLoop]
  | cons t ts =>
    simp only [parseLoop]
    cases hb : binRank t with
    | none => rfl
    | some q =>
      have : ¬ q ≤ m := by have := h q hb; omega
      simp [this]

theorem noLowOp_mono {p q : Nat} (hpq : q ≤ p) {rest : List Token} (h : noLowOp p rest) :
    noLowOp q rest := by
  cases rest with
  | nil => trivial
  | cons t ts => intro r hr; exact le_trans hpq (h r hr)

theorem parseLoop_fuel_pos {k m : Nat} {f : Formula} {rest : List Token}
    {res : Formula × List Token} (h : parseLoop k m f rest = some res) : 1 ≤ k := by
  cases k with
  | zero => simp [parseLoop] at h
  | succ k => omega

theorem fuelP_pos (f : Formula) : 1 ≤ fuelP f := by
  cases f <;> simp [fuelP]

/-- An operand that is printed as a primary is read back through `parsePrimary`. -/
theorem exprOK_of_prim (f : Formula) (hP : PrimOK f) (n k m b : Nat) (rest : List Token)
    (res : Formula × List Token) (hw : decide (b < rank f) = decide (1 < rank f))
    (hl : parseLoop k m f rest = some res) (hn : k + fuelP f ≤ n) :
    parseExpr n m (wrapT (decide (b < rank f)) (toks f) ++ rest) = some res := by
  have hk := parseLoop_fuel_pos hl
  have hf := fuelP_pos f
  obtain ⟨n1, rfl⟩ : ∃ n1, n = n1 + 1 := ⟨n - 1, by omega⟩
  simp only [parseExpr, hw, hP n1 rest (by omega)]
  exact parseLoop_mono (by omega) hl

/-- A binary node printed without parentheses is read back by the operator loop. -/
theorem binary_unwrapped (f l r : Formula) (t : Token) (p : Nat)
    (hf : f = mkBin t l r) (hb : binRank t = some p) (hp : 2 ≤ p)
    (htoks : toks f = wrapT (decide (p < rank l)) (toks l)
      ++ t :: wrapT (decide (p - 1 < rank r)) (toks r))
    (hL : ExprOK l) (hR : ExprOK r)
    (n k m : Nat) (rest : List Token) (res : Formula × List Token)
    (hpm : p ≤ m) (hrest : noLowOp p rest)
    (hl : parseLoop k m f rest = some res) (hn : k + fuelP l + fuelP r + 2 ≤ n) :
    parseExpr n m (toks f ++ rest) = some res := by
  have hright : parseExpr (k + fuelP r + 1) (p - 1)
      (wrapT (decide (p - 1 < rank r)) (toks r) ++ rest) = some (r, rest) := by
    refine hR _ 1 (p - 1) (p - 1) rest (r, rest) (by omega) le_rfl ?_ ?_ (by omega)
    · intro _
      exact noLowOp_mono (by omega) hrest
    · exact parseLoop_stop 0 (p - 1) r rest (by
        have e : p - 1 + 1 = p := by omega
        rw [e]; exact hrest)
  have hloop : parseLoop (k + fuelP r + 2) m l
      (t :: (wrapT (decide (p - 1 < rank r)) (toks r) ++ rest)) = some res := by
    simp only [parseLoop, hb, hpm, if_true, hright]
    rw [← hf]
    exact parseLoop_mono (by omega) hl
  have hlow : rank l ≤ p →
      noLowOp (rank l) (t :: (wrapT (decide (p - 1 < rank r)) (toks r) ++ rest)) := by
    intro h q hq
    rw [hb] at hq
    cases hq
    exact h
  have := hL n (k + fuelP r + 2) m p _ res (by omega) hpm hlow hloop (by omega)
  rw [htoks]
  simpa using this

/-- A binary node is read back, as a primary when wrapped and as an operand. -/
theorem binary_complete (f l r : Formula) (t : Token) (p : Nat)
    (hf : f = mkBin t l r) (hb : binRank t = some p) (hp : 2 ≤ p) (hrank : rank f = p)
    (hfuel : fuelP f = fuelP l + fuelP r + 4)
    (htoks : toks f = wrapT (decide (p < rank l)) (toks l)
      ++ t :: wrapT (decide (p - 1 < rank r)) (toks r))
    (hL : ExprOK l) (hR : ExprOK r) : PrimOK f ∧ ExprOK f := by
  have hp5 : p ≤ 5 := by rw [← hrank]; exact rank_le_five f
  have hU := binary_unwrapped f l r t p hf hb hp htoks hL hR
  have hP : PrimOK f := by
    intro n rest hn
    obtain ⟨n1, rfl⟩ : ∃ n1, n = n1 + 1 := ⟨n - 1, by omega⟩
    have h1 : decide (1 < rank f) = true := by simp [hrank]; omega
    have h2 := hU n1 1 5 (Token.RPAREN :: rest) (f, Token.RPAREN :: rest) hp5
      (by intro q hq; simp [binRank] at hq)
      (parseLoop_stop 0 5 f _ (by intro q hq; simp [binRank] at hq)) (by omega)
    have e : wrapT true (toks f) ++ rest = Token.LPAREN :: (toks f ++ Token.RPAREN :: rest) := by
      simp [wrapT]
    rw [h1, e]
    simp only [parsePrimary, h2]
  refine ⟨hP, ?_⟩
  intro n k m b rest res hb1 hbm hlow hl hn
  by_cases hw : b < rank f
  · refine exprOK_of_prim f hP n k m b rest res ?_ hl hn
    have : 1 < rank f := by omega
    simp [hw, this]
  · have hrb : rank f ≤ b := by omega
    have e : wrapT (decide (b < rank f)) (toks f) = toks f := by simp [wrapT, hw]
    rw [e]
    exact hU n k m rest res (by omega) (by rw [← hrank]; exact hlow hrb) hl (by omega)

theorem leaf_complete (f : Formula) (t : Token) (hr : rank f = 0) (ht : toks f = [t])
    (hfuel : fuelP f = 1)
    (hp : ∀ n ts, parsePrimary (n + 1) (t :: ts) = some (f, ts)) : PrimOK f ∧ ExprOK f := by
  have hP : PrimOK f := by
    intro n rest hn
    obtain ⟨n1, rfl⟩ : ∃ n1, n = n1 + 1 := ⟨n - 1, by omega⟩
    simp [hr, wrapT, ht, hp]
  refine ⟨hP, ?_⟩
  intro n k m b rest res _ _ _ hl hn
  exact exprOK_of_prim f hP n k m b rest res (by simp [hr]) hl hn

theorem complete (f : Formula) : PrimOK f ∧ ExprOK f := by
  induction f with
  | True => exact leaf_complete _ .TRUE rfl rfl rfl (fun n ts => by simp [parsePrimary])
  | False => exact leaf_complete _ .FALSE rfl rfl rfl (fun n ts => by simp [parsePrimary])
  | Atom var =>
    exact leaf_complete _ (.ATOM var) rfl rfl rfl (fun n ts => by simp [parsePrimary])
  | Not op ih =>
    have hP : PrimOK (.Not op) := by
      intro n rest hn
      simp only [fuelP] at hn
      obtain ⟨n1, rfl⟩ : ∃ n1, n = n1 + 1 := ⟨n - 1, by omega⟩
      have h := ih.1 n1 rest (by omega)
      show parsePrimary (n1 + 1)
        (Token.NOT :: (wrapT (decide (1 < rank op)) (toks op) ++ rest)) = _
      simp only [parsePrimary, h]
    refine ⟨hP, ?_⟩
    intro n k m b rest res hb1 _ _ hl hn
    refine exprOK_of_prim _ hP n k m b rest res ?_ hl hn
    have : ¬ b < 1 := by omega
    simp [rank, this]
  | And op1 op2 ih1 ih2 =>
    exact binary_complete _ op1 op2 .AND 2 rfl rfl le_rfl rfl rfl rfl ih1.2 ih2.2
  | Or op1 op2 ih1 ih2 =>
    exact binary_complete _ op1 op2 .OR 3 rfl rfl (by omega) rfl rfl rfl ih1.2 ih2.2
  | Imp op1 op2 ih1 ih2 =>
    exact binary_complete _ op1 op2 .IMP 4 rfl rfl (by omega) rfl rfl rfl ih1.2 ih2.2
  | Iff op1 op2 ih1 ih2 =>
    exact binary_complete _ op1 op2 .IFF 5 rfl rfl (by omega) rfl rfl rfl ih1.2 ih2.2

theorem length_wrapT (b : Bool) (ts : List Token) : ts.length ≤ (wrapT b ts).length := by
  cases b <;> simp [wrapT]
  omega

theorem fuelP_le_length (f : Formula) : fuelP f + 3 ≤ 4 * (toks f).length := by
  induction f with
  | True => simp [fuelP, toks]
  | False => simp [fuelP, toks]
  | Atom var => simp [fuelP, toks]
  | Not op ih =>
    have := length_wrapT (decide (1 < rank op)) (toks op)
    simp only [fuelP, toks, List.length_cons]
    omega
  | And op1 op2 ih1 ih2 =>
    have h1 := length_wrapT (decide (2 < rank op1)) (toks op1)
    have h2 := length_wrapT (decide (1 < rank op2)) (toks op2)
    simp only [fuelP, toks, List.length_cons, List.length_append]
    omega
  | Or op1 op2 ih1 ih2 =>
    have h1 := length_wrapT (decide (3 < rank op1)) (toks op1)
    have h2 := length_wrapT (decide (2 < rank op2)) (toks op2)
    simp only [fuelP, toks, List.length_cons, List.length_append]
    omega
  | Imp op1 op2 ih1 ih2 =>
    have h1 := length_wrapT (decide (4 < rank op1)) (toks op1)
    have h2 := length_wrapT (decide (3 < rank op2)) (toks op2)
    simp only [fuelP, toks, List.length_cons, List.length_append]
    omega
  | Iff op1 op2 ih1 ih2 =>
    have h1 := length_wrapT (decide (5 < rank op1)) (toks op1)
    have h2 := length_wrapT (decide (4 < rank op2)) (toks op2)
    simp only [fuelP, toks, List.length_cons, List.length_append]
    omega

/-- With enough recursion depth the token sequence of a formula reads back as it. -/
theorem parseTokensFuel_toks (f : Formula) (n : Nat) (hn : fuelP f + 1 ≤ n) :
    parseTokensFuel n (toks f) = some f := by
  have h := (complete f).2 n 1 5 5 [] (f, []) (by omega) le_rfl (fun _ => trivial)
    (parseLoop_stop 0 5 f [] trivial) (by omega)
  have e : decide (5 < rank f) = false := by
    have := rank_le_five f
    simp; omega
  simp only [e, wrapT, Bool.false_eq_true, if_false, List.append_nil] at h
  simp [parseTokensFuel, h]

/-- The round trip, for formulas with lexically valid atom names. -/
theorem parse_print_of_goodNames (f : Formula) (hg : goodNames f = true) :
    parse (printFormula f "") = some f := by
  have hd : (printFormula f "").data = chars f := by simp [printFormula_data]
  have hf := fuelP_le_length f
  simp only [parse, hd, tokenize_chars f hg]
  exact parseTokensFuel_toks f _ (by omega)

/-! ## What the parser consumed: parentheses and atom names -/

theorem countLP_append (xs ys : List Token) : countLP (xs ++ ys) = countLP xs + countLP ys := by
  induction xs with
  | nil => simp [countLP]
  | cons t xs ih =>
    cases t <;> simp [countLP, ih]
    omega

theorem atomNames_append (xs ys : List Token) :
    atomNames (xs ++ ys) = atomNames xs ++ atomNames ys := by
  induction xs with
  | nil => simp [atomNames]
  | cons t xs ih => cases t <;> simp [atomNames, ih]

theorem need_unwrapped {b : Nat} {f : Formula} (h : rank f ≤ b) : need b f = countLP (toks f) := by
  have : ¬ b < rank f := by omega
  simp [need, wrapT, this]

theorem need_wrapped {b : Nat} {f : Formula} (h : b < rank f) :
    need b f = countLP (toks f) + 1 := by
  simp [need, wrapT, h, countLP, countLP_append]

theorem need_anti {b c : Nat} (h : b ≤ c) (f : Formula) : need c f ≤ need b f := by
  by_cases h1 : rank f ≤ b
  · rw [need_unwrapped h1, need_unwrapped (le_trans h1 h)]
  · have e1 : need b f = countLP (toks f) + 1 := need_wrapped (by omega)
    by_cases h2 : rank f ≤ c
    · rw [need_unwrapped h2, e1]; omega
    · have e2 : need c f = countLP (toks f) + 1 := need_wrapped (by omega)
      rw [e1, e2]

theorem need_le_succ (b : Nat) (f : Formula) : need b f ≤ countLP (toks f) + 1 := by
  by_cases h1 : rank f ≤ b
  · rw [need_unwrapped h1]; omega
  · have e1 : need b f = countLP (toks f) + 1 := need_wrapped (by omega)
    rw [e1]

theorem binRank_range {t : Token} {p : Nat} (h : binRank t = some p) : 2 ≤ p ∧ p ≤ 5 := by
  cases t <;> simp [binRank] at h <;> omega

theorem rank_mkBin {t : Token} {p : Nat} (h : binRank t = some p) (l r : Formula) :
    rank (mkBin t l r) = p := by
  cases t <;> simp [binRank] at h <;> simp [mkBin, rank, h]

theorem atoms_mkBin (t : Token) (l r : Formula) : atoms (mkBin t l r) = atoms l ++ atoms r := by
  cases t <;> simp [mkBin, atoms]

theorem countLP_toks_mkBin {t : Token} {p : Nat} (h : binRank t = some p) (l r : Formula) :
    countLP (toks (mkBin t l r)) = need p l + need (p - 1) r := by
  cases t <;> simp [binRank] at h <;> subst h <;>
    simp [mkBin, toks, need, countLP_append, countLP]

theorem countLP_binop {t : Token} {p : Nat} (h : binRank t = some p) (ts : List Token) :
    countLP (t :: ts) = countLP ts := by
  cases t <;> simp [binRank] at h <;> simp [countLP]

theorem atomNames_binop {t : Token} {p : Nat} (h : binRank t = some p) (ts : List Token) :
    atomNames (t :: ts) = atomNames ts := by
  cases t <;> simp [binRank] at h <;> simp [atomNames]

/-- Whatever the parser returns, the tokens it consumed carry at least the
parentheses the printer would emit for the result, and exactly its atom names. -/
theorem parse_sound (n : Nat) :
    (∀ ts f rest, parsePrimary n ts = some (f, rest) →
      ∃ pre, ts = pre ++ rest ∧ need 1 f ≤ countLP pre ∧ atoms f = atomNames pre) ∧
    (∀ m ts f rest, 1 ≤ m → parseExpr n m ts = some (f, rest) →
      ∃ pre, ts = pre ++ rest ∧ need m f ≤ countLP pre ∧ atoms f = atomNames pre ∧
        noLowOp (m + 1) rest) ∧
    (∀ m lhs ts f rest c0, 1 ≤ m → parseLoop n m lhs ts = some (f, rest) →
      need m lhs ≤ c0 →
      (∀ t ts1 q, ts = t :: ts1 → binRank t = some q → need q lhs ≤ c0) →
      ∃ pre, ts = pre ++ rest ∧ need m f ≤ c0 + countLP pre ∧
        atoms f = atoms lhs ++ atomNames pre ∧ noLowOp (m + 1) rest) := by
  induction n with
  | zero => simp [parsePrimary, parseExpr, parseLoop]
  | succ n ih =>
    obtain ⟨ihP, ihE, ihL⟩ := ih
    refine ⟨?_, ?_, ?_⟩
    · intro ts f rest h
      cases ts with
      | nil => simp [parsePrimary] at h
      | cons t ts =>
        cases t <;> simp only [parsePrimary] at h
        case TRUE =>
          simp only [Option.some.injEq, Prod.mk.injEq] at h
          obtain ⟨rfl, rfl⟩ := h
          exact ⟨[.TRUE], rfl, by simp [need, rank, wrapT, toks, countLP], rfl⟩
        case FALSE =>
          simp only [Option.some.injEq, Prod.mk.injEq] at h
          obtain ⟨rfl, rfl⟩ := h
          exact ⟨[.FALSE], rfl, by simp [need, rank, wrapT, toks, countLP], rfl⟩
        case ATOM name =>
          simp only [Option.some.injEq, Prod.mk.injEq] at h
          obtain ⟨rfl, rfl⟩ := h
          exact ⟨[.ATOM name], rfl, by simp [need, rank, wrapT, toks, countLP], rfl⟩
        case NOT =>
          cases hp : parsePrimary n ts with
          | none => simp [hp] at h
          | some gr =>
            obtain ⟨g, r1⟩ := gr
            simp only [hp, Option.some.injEq, Prod.mk.injEq] at h
            obtain ⟨rfl, rfl⟩ := h
            obtain ⟨pre, e, hc, ha⟩ := ihP ts g r1 hp
            refine ⟨.NOT :: pre, by simp [e], ?_, by simpa [atoms, atomNames] using ha⟩
            have e1 : need 1 (Formula.Not g) = need 1 g := by
              simp [need, rank, wrapT, toks, countLP]
            rw [e1]
            simpa [countLP] using hc
        case LPAREN =>
          cases he : parseExpr n 5 ts with
          | none => simp [he] at h
          | some gr =>
            obtain ⟨g, r1⟩ := gr
            obtain ⟨pre, e, hc, ha, -⟩ := ihE 5 ts g r1 (by omega) he
            rcases r1 with _ | ⟨t1, r2⟩
            · simp [he] at h
            · cases t1
              case RPAREN =>
                simp only [he, Option.some.injEq, Prod.mk.injEq] at h
                obtain ⟨rfl, rfl⟩ := h
                refine ⟨.LPAREN :: (pre ++ [.RPAREN]), by simp [e], ?_, ?_⟩
                · have h1 := need_le_succ 1 g
                  have h2 : need 5 g = countLP (toks g) := need_unwrapped (rank_le_five g)
                  simp only [countLP, countLP_append]
                  omega
                · simp [atomNames, atomNames_append, ha]
              all_goals simp [he] at h
        all_goals exact absurd h (by simp)
    · intro m ts f rest hm h
      simp only [parseExpr] at h
      cases hp : parsePrimary n ts with
      | none => simp [hp] at h
      | some gr =>
        obtain ⟨g, r1⟩ := gr
        simp only [hp] at h
        obtain ⟨pre1, e1, hc1, ha1⟩ := ihP ts g r1 hp
        obtain ⟨pre2, e2, hc2, ha2, hlow⟩ := ihL m g r1 f rest (countLP pre1) hm h
          (le_trans (need_anti hm g) hc1)
          (fun t ts1 q _ hq => le_trans (need_anti (by have := binRank_range hq; omega) g) hc1)
        refine ⟨pre1 ++ pre2, by rw [e1, e2, List.append_assoc], ?_, ?_, hlow⟩
        · rw [countLP_append]; exact hc2
        · rw [atomNames_append, ha2, ha1]
    · intro m lhs ts f rest c0 hm h hc0 hhead
      have stop : ∀ us, some (lhs, us) = some (f, rest) → noLowOp (m + 1) us →
          ∃ pre, us = pre ++ rest ∧ need m f ≤ c0 + countLP pre ∧
            atoms f = atoms lhs ++ atomNames pre ∧ noLowOp (m + 1) rest := by
        intro us hs hl
        simp only [Option.some.injEq, Prod.mk.injEq] at hs
        obtain ⟨rfl, rfl⟩ := hs
        exact ⟨[], rfl, by simpa [countLP] using hc0, by simp [atomNames], hl⟩
      cases ts with
      | nil => exact stop [] (by simpa [parseLoop] using h) trivial
      | cons t ts =>
        simp only [parseLoop] at h
        cases hb : binRank t with
        | none =>
          simp only [hb] at h
          exact stop _ h (fun q hq => by rw [hb] at hq; cases hq)
        | some p =>
          simp only [hb] at h
          by_cases hp : p ≤ m
          · simp only [hp, if_true] at h
            have hr := binRank_range hb
            cases he : parseExpr n (p - 1) ts with
            | none => simp [he] at h
            | some gr =>
              obtain ⟨rhs, r1⟩ := gr
              simp only [he] at h
              obtain ⟨pre1, e1, hc1, ha1, hlow1⟩ := ihE (p - 1) ts rhs r1 (by omega) he
              have hp1 : p - 1 + 1 = p := by omega
              rw [hp1] at hlow1
              have hrk : rank (mkBin t lhs rhs) = p := rank_mkBin hb lhs rhs
              have hcnt : countLP (toks (mkBin t lhs rhs)) ≤ c0 + countLP pre1 := by
                rw [countLP_toks_mkBin hb]
                have := hhead t ts p rfl hb
                omega
              obtain ⟨pre2, e2, hc2, ha2, hlow2⟩ := ihL m (mkBin t lhs rhs) r1 f rest
                (c0 + countLP pre1) hm h
                (by rw [need_unwrapped (by omega)]; exact hcnt)
                (by
                  intro t2 ts2 q e hq
                  rw [e] at hlow1
                  have := hlow1 q hq
                  rw [need_unwrapped (by omega)]
                  exact hcnt)
              refine ⟨t :: (pre1 ++ pre2), by rw [e1, e2]; simp, ?_, ?_, hlow2⟩
              · rw [countLP_binop hb, countLP_append]; omega
              · rw [atomNames_binop hb, atomNames_append, ha2, atoms_mkBin, ha1]
                simp
          · simp only [hp, if_false] at h
            exact stop _ h (fun q hq => by rw [hb] at hq; cases hq; omega)

/-! ## What the lexer produces -/

theorem countLP_flush (acc : List Char) : countLP (flush acc) = 0 := by
  unfold flush wordToken
  split_ifs <;> simp [countLP]

theorem validName_mk (w : List Char) (hne : w ≠ []) (hw : ∀ c ∈ w, isIdChar c = true)
    (h1 : w ≠ "true".data) (h2 : w ≠ "false".data) : validName (String.mk w) = true := by
  have e1 : String.mk w ≠ "true" := fun e => h1 (by rw [← e])
  have e2 : String.mk w ≠ "false" := fun e => h2 (by rw [← e])
  simp [validName, hne, e1, e2]
  exact hw

theorem atomNames_flush (acc : List Char) (hacc : ∀ c ∈ acc, isIdChar c = true) :
    ∀ name ∈ atomNames (flush acc), validName name = true := by
  unfold flush wordToken
  split_ifs with h1 h2 h3 <;> simp [atomNames]
  exact validName_mk _ (by simpa using h1) (by simpa using hacc) h2 h3

/-- Every opening parenthesis of the text is one token, and no other character is. -/
theorem lexRun_countLP (s : List Char) :
    ∀ st ts, lexRun st s = some ts → countLP ts = s.count '(' := by
  induction s with
  | nil =>
    intro st ts h
    cases st <;> simp [lexRun] at h
    subst h
    simp [countLP_flush]
  | cons c cs ih =>
    intro st ts h
    simp only [lexRun] at h
    cases hs : lexStep st c with
    | none => simp [hs] at h
    | some so =>
      obtain ⟨st1, out⟩ := so
      simp only [hs, Option.map_eq_some'] at h
      obtain ⟨ts1, h1, rfl⟩ := h
      have hcount : countLP out = if c = '(' then 1 else 0 := by
        cases st with
        | word acc =>
          simp only [lexStep] at hs
          split_ifs at hs with a1 a2 a3 a4 a5 a6 a7 a8 a9 <;>
            simp only [Option.some.injEq, Prod.mk.injEq] at hs <;>
            obtain ⟨-, rfl⟩ := hs
          · have : c ≠ '(' := by rintro rfl; exact absurd a1 (by decide)
            simp [this, countLP]
          · have : c ≠ '(' := by rintro rfl; exact absurd a2 (by decide)
            simp [this, countLP_flush]
          · subst a3; simp [countLP_append, countLP_flush, countLP]
          · subst a4; simp [countLP_append, countLP_flush, countLP]
          · subst a5; simp [countLP_append, countLP_flush, countLP]
          · subst a6; simp [countLP_append, countLP_flush, countLP]
          · subst a7; simp [countLP_append, countLP_flush, countLP]
          · subst a8; simp [countLP_flush]
          · subst a9; simp [countLP_flush]
        | eq =>
          simp only [lexStep] at hs
          split_ifs at hs with a1
          simp only [Option.some.injEq, Prod.mk.injEq] at hs
          obtain ⟨-, rfl⟩ := hs
          subst a1; simp [countLP]
        | lt =>
          simp only [lexStep] at hs
          split_ifs at hs with a1
          simp only [Option.some.injEq, Prod.mk.injEq] at hs
          obtain ⟨-, rfl⟩ := hs
          subst a1; simp [countLP]
        | lteq =>
          simp only [lexStep] at hs
          split_ifs at hs with a1
          simp only [Option.some.injEq, Prod.mk.injEq] at hs
          obtain ⟨-, rfl⟩ := hs
          subst a1; simp [countLP]
      rw [countLP_append, hcount, ih st1 ts1 h1, List.count_cons]
      by_cases hc : c = '(' <;> simp [hc]
      omega

/-- Every atom token the lexer produces carries a lexically valid name. -/
theorem lexRun_valid (s : List Char) :
    ∀ st ts, LexState.ok st → lexRun st s = some ts →
      ∀ name ∈ atomNames ts, validName name = true := by
  induction s with
  | nil =>
    intro st ts hst h
    cases st <;> simp [lexRun] at h
    subst h
    exact atomNames_flush _ hst
  | cons c cs ih =>
    intro st ts hst h
    simp only [lexRun] at h
    cases hs : lexStep st c with
    | none => simp [hs] at h
    | some so =>
      obtain ⟨st1, out⟩ := so
      simp only [hs, Option.map_eq_some'] at h
      obtain ⟨ts1, h1, rfl⟩ := h
      have hout : LexState.ok st1 ∧ ∀ name ∈ atomNames out, validName name = true := by
        cases st with
        | word acc =>
          have hf := atomNames_flush acc hst
          simp only [lexStep] at hs
          split_ifs at hs with a1 a2 a3 a4 a5 a6 a7 a8 a9 <;>
            simp only [Option.some.injEq, Prod.mk.injEq] at hs <;>
            obtain ⟨rfl, rfl⟩ := hs <;>
            refine ⟨?_, ?_⟩ <;>
            first
              | exact hf
              | (simp only [atomNames_append, atomNames, List.append_nil]; exact hf)
              | (simp [LexState.ok, atomNames]; done)
              | skip
          intro d hd
          rcases List.mem_cons.1 hd with rfl | hd
          · exact a1
          · exact hst d hd
        | eq =>
          simp only [lexStep] at hs
          split_ifs at hs with a1
          simp only [Option.some.injEq, Prod.mk.injEq] at hs
          obtain ⟨rfl, rfl⟩ := hs
          simp [LexState.ok, atomNames]
        | lt =>
          simp only [lexStep] at hs
          split_ifs at hs with a1
          simp only [Option.some.injEq, Prod.mk.injEq] at hs
          obtain ⟨rfl, rfl⟩ := hs
          simp [LexState.ok, atomNames]
        | lteq =>
          simp only [lexStep] at hs
          split_ifs at hs with a1
          simp only [Option.some.injEq, Prod.mk.injEq] at hs
          obtain ⟨rfl, rfl⟩ := hs
          simp [LexState.ok, atomNames]
      intro name hname
      rw [atomNames_append] at hname
      rcases List.mem_append.1 hname with hn | hn
      · exact hout.2 name hn
      · exact ih st1 ts1 hout.1 h1 name hn

theorem goodNames_iff (f : Formula) :
    goodNames f = true ↔ ∀ name ∈ atoms f, validName name = true := by
  induction f with
  | True => simp [goodNames, atoms]
  | False => simp [goodNames, atoms]
  | Atom var => simp [goodNames, atoms]
  | Not op ih => simpa [goodNames, atoms] using ih
  | And op1 op2 ih1 ih2 =>
    simp only [goodNames, atoms, Bool.and_eq_true, ih1, ih2, List.mem_append]
    constructor
    · rintro ⟨h1, h2⟩ name (h | h)
      · exact h1 name h
      · exact h2 name h
    · intro h; exact ⟨fun n hn => h n (Or.inl hn), fun n hn => h n (Or.inr hn)⟩
  | Or op1 op2 ih1 ih2 =>
    simp only [goodNames, atoms, Bool.and_eq_true, ih1, ih2, List.mem_append]
    constructor
    · rintro ⟨h1, h2⟩ name (h | h)
      · exact h1 name h
      · exact h2 name h
    · intro h; exact ⟨fun n hn => h n (Or.inl hn), fun n hn => h n (Or.inr hn)⟩
  | Imp op1 op2 ih1 ih2 =>
    simp only [goodNames, atoms, Bool.and_eq_true, ih1, ih2, List.mem_append]
    constructor
    · rintro ⟨h1, h2⟩ name (h | h)
      · exact h1 name h
      · exact h2 name h
    · intro h; exact ⟨fun n hn => h n (Or.inl hn), fun n hn => h n (Or.inr hn)⟩
  | Iff op1 op2 ih1 ih2 =>
    simp only [goodNames, atoms, Bool.and_eq_true, ih1, ih2, List.mem_append]
    constructor
    · rintro ⟨h1, h2⟩ name (h | h)
      · exact h1 name h
      · exact h2 name h
    · intro h; exact ⟨fun n hn => h n (Or.inl hn), fun n hn => h n (Or.inr hn)⟩

/-! ## The recursion bound of `parse` is never the reason of a rejection -/

/-- A result obtained with some recursion depth is obtained with a depth of twice the
number of tokens consumed. -/
theorem parse_depth (n : Nat) :
    (∀ ts f rest, parsePrimary n ts = some (f, rest) →
      rest.length < ts.length ∧
        ∀ k, 2 * (ts.length - rest.length) ≤ k + 1 → parsePrimary k ts = some (f, rest)) ∧
    (∀ m ts f rest, parseExpr n m ts = some (f, rest) →
      rest.length < ts.length ∧
        ∀ k, 2 * (ts.length - rest.length) ≤ k → parseExpr k m ts = some (f, rest)) ∧
    (∀ m lhs ts f rest, parseLoop n m lhs ts = some (f, rest) →
      rest.length ≤ ts.length ∧
        ∀ k, 2 * (ts.length - rest.length) + 1 ≤ k → parseLoop k m lhs ts = some (f, rest)) := by
  induction n with
  | zero => simp [parsePrimary, parseExpr, parseLoop]
  | succ n ih =>
    obtain ⟨ihP, ihE, ihL⟩ := ih
    refine ⟨?_, ?_, ?_⟩
    · intro ts f rest h
      cases ts with
      | nil => simp [parsePrimary] at h
      | cons t ts =>
        cases t <;> simp only [parsePrimary] at h
        case TRUE =>
          simp only [Option.some.injEq, Prod.mk.injEq] at h
          obtain ⟨rfl, rfl⟩ := h
          refine ⟨by simp, fun k hk => ?_⟩
          obtain ⟨k1, rfl⟩ : ∃ k1, k = k1 + 1 := ⟨k - 1, by simp at hk; omega⟩
          simp [parsePrimary]
        case FALSE =>
          simp only [Option.some.injEq, Prod.mk.injEq] at h
          obtain ⟨rfl, rfl⟩ := h
          refine ⟨by simp, fun k hk => ?_⟩
          obtain ⟨k1, rfl⟩ : ∃ k1, k = k1 + 1 := ⟨k - 1, by simp at hk; omega⟩
          simp [parsePrimary]
        case ATOM name =>
          simp only [Option.some.injEq, Prod.mk.injEq] at h
          obtain ⟨rfl, rfl⟩ := h
          refine ⟨by simp, fun k hk => ?_⟩
          obtain ⟨k1, rfl⟩ : ∃ k1, k = k1 + 1 := ⟨k - 1, by simp at hk; omega⟩
          simp [parsePrimary]
        case NOT =>
          cases hp : parsePrimary n ts with
          | none => simp [hp] at h
          | some gr =>
            obtain ⟨g, r1⟩ := gr
            simp only [hp, Option.some.injEq, Prod.mk.injEq] at h
            obtain ⟨rfl, rfl⟩ := h
            obtain ⟨hlen, hk1⟩ := ihP ts g r1 hp
            refine ⟨by simp only [List.length_cons]; omega, fun k hk => ?_⟩
            simp only [List.length_cons] at hk
            obtain ⟨k1, rfl⟩ : ∃ k1, k = k1 + 1 := ⟨k - 1, by omega⟩
            simp only [parsePrimary, hk1 k1 (by omega)]
        case LPAREN =>
          cases he : parseExpr n 5 ts with
          | none => simp [he] at h
          | some gr =>
            obtain ⟨g, r1⟩ := gr
            obtain ⟨hlen, hk1⟩ := ihE 5 ts g r1 he
            rcases r1 with _ | ⟨t1, r2⟩
            · simp [he] at h
            · cases t1
              case RPAREN =>
                simp only [he, Option.some.injEq, Prod.mk.injEq] at h
                obtain ⟨rfl, rfl⟩ := h
                simp only [List.length_cons] at hlen hk1
                refine ⟨by simp only [List.length_cons]; omega, fun k hk => ?_⟩
                simp only [List.length_cons] at hk
                obtain ⟨k1, rfl⟩ : ∃ k1, k = k1 + 1 := ⟨k - 1, by omega⟩
                simp only [parsePrimary, hk1 k1 (by omega)]
              all_goals simp [he] at h
        all_goals exact absurd h (by simp)
    · intro m ts f rest h
      simp only [parseExpr] at h
      cases hp : parsePrimary n ts with
      | none => simp [hp] at h
      | some gr =>
        obtain ⟨g, r1⟩ := gr
        simp only [hp] at h
        obtain ⟨hlen1, hk1⟩ := ihP ts g r1 hp
        obtain ⟨hlen2, hk2⟩ := ihL m g r1 f rest h
        refine ⟨by omega, fun k hk => ?_⟩
        obtain ⟨k1, rfl⟩ : ∃ k1, k = k1 + 1 := ⟨k - 1, by omega⟩
        simp only [parseExpr, hk1 k1 (by omega)]
        exact hk2 k1 (by omega)
    · intro m lhs ts f rest h
      have stop : ∀ us, some (lhs, us) = some (f, rest) →
          (∀ k1, parseLoop (k1 + 1) m lhs us = some (lhs, us)) →
          rest.length ≤ us.length ∧
            ∀ k, 2 * (us.length - rest.length) + 1 ≤ k → parseLoop k m lhs us = some (f, rest) := by
        intro us hs hl
        simp only [Option.some.injEq, Prod.mk.injEq] at hs
        obtain ⟨rfl, rfl⟩ := hs
        refine ⟨le_rfl, fun k hk => ?_⟩
        obtain ⟨k1, rfl⟩ : ∃ k1, k = k1 + 1 := ⟨k - 1, by omega⟩
        exact hl k1
      cases ts with
      | nil => exact stop [] (by simpa [parseLoop] using h) (fun k1 => by simp [parseLoop])
      | cons t ts =>
        simp only [parseLoop] at h
        cases hb : binRank t with
        | none =>
          simp only [hb] at h
          exact stop _ h (fun k1 => by simp [parseLoop, hb])
        | some p =>
          simp only [hb] at h
          by_cases hp : p ≤ m
          · simp only [hp, if_true] at h
            cases he : parseExpr n (p - 1) ts with
            | none => simp [he] at h
            | some gr =>
              obtain ⟨rhs, r1⟩ := gr
              simp only [he] at h
              obtain ⟨hlen1, hk1⟩ := ihE (p - 1) ts rhs r1 he
              obtain ⟨hlen2, hk2⟩ := ihL m (mkBin t lhs rhs) r1 f rest h
              refine ⟨by simp only [List.length_cons]; omega, fun k hk => ?_⟩
              simp only [List.length_cons] at hk
              obtain ⟨k1, rfl⟩ : ∃ k1, k = k1 + 1 := ⟨k - 1, by omega⟩
              simp only [parseLoop, hb, hp, if_true, hk1 k1 (by omega)]
              exact hk2 k1 (by omega)
          · simp only [hp, if_false] at h
            exact stop _ h (fun k1 => by simp [parseLoop, hb, hp])

/-- Whatever some recursion depth yields for a token sequence, `parseTokensFuel` with
the depth used by `parse` yields too. -/
theorem parseTokensFuel_adequate (n : Nat) (ts : List Token) (f : Formula)
    (h : parseTokensFuel n ts = some f) : parseTokensFuel (4 * ts.length + 2) ts = some f := by
  unfold parseTokensFuel at h ⊢
  cases he : parseExpr n 5 ts with
  | none => simp [he] at h
  | some gr =>
    obtain ⟨g, r⟩ := gr
    cases r with
    | cons t r => simp [he] at h
    | nil =>
      simp only [he, Option.some.injEq] at h
      subst h
      have := ((parse_depth n).2.1 5 ts g [] he).2 (4 * ts.length + 2) (by simp; omega)
      simp [this]

/-! ## Consequences for whole texts -/

theorem tokenize_valid {s : List Char} {ts : List Token} (h : tokenize s = some ts) :
    ∀ name ∈ atomNames ts, validName name = true :=
  lexRun_valid s (.word []) ts (by simp [LexState.ok]) h

theorem tokenize_countLP {s : List Char} {ts : List Token} (h : tokenize s = some ts) :
    countLP ts = s.count '(' :=
  lexRun_countLP s (.word []) ts h

/-- A name is lexically valid exactly when the lexer reads it as one atom of that name. -/
theorem validName_iff_tokenize (name : String) :
    validName name = true ↔ tokenize name.data = some [Token.ATOM name] := by
  constructor
  · intro h
    obtain ⟨h1, h2, h3⟩ := wordToken_valid name h
    have := lexRun_ident name.data [] [] h1 h2 rfl (by simp [lexRun, flush_nil])
    simpa [tokenize, h3] using this
  · intro h
    exact tokenize_valid h name (by simp [atomNames])

/-- What a successful parse of a text tells about the text. -/
theorem parse_some {s : String} {f : Formula} (h : parse s = some f) :
    ∃ ts n, tokenize s.data = some ts ∧ parseExpr n 5 ts = some (f, []) := by
  unfold parse at h
  cases ht : tokenize s.data with
  | none => simp [ht] at h
  | some ts =>
    simp only [ht, parseTokensFuel] at h
    refine ⟨ts, 4 * ts.length + 2, rfl, ?_⟩
    cases he : parseExpr (4 * ts.length + 2) 5 ts with
    | none => simp [he] at h
    | some gr =>
      obtain ⟨g, r⟩ := gr
      cases r with
      | nil => simp only [he, Option.some.injEq] at h; rw [h]
      | cons t r => simp [he] at h

theorem parse_goodNames {s : String} {f : Formula} (h : parse s = some f) :
    goodNames f = true := by
  obtain ⟨ts, n, ht, he⟩ := parse_some h
  obtain ⟨pre, e, -, ha, -⟩ := (parse_sound n).2.1 5 ts f [] (by omega) he
  rw [goodNames_iff, ha]
  have : pre = ts := by simpa using e.symm
  rw [this]
  exact tokenize_valid ht

theorem parse_count {s : String} {f : Formula} (h : parse s = some f) :
    countLP (toks f) ≤ s.data.count '(' := by
  obtain ⟨ts, n, ht, he⟩ := parse_some h
  obtain ⟨pre, e, hc, -, -⟩ := (parse_sound n).2.1 5 ts f [] (by omega) he
  have : pre = ts := by simpa using e.symm
  rw [this, need_unwrapped (rank_le_five f), tokenize_countLP ht] at hc
  exact hc

/-! ## The printed text as a string -/

theorem parenthesized_data (b : Bool) (s : String) :
    (parenthesized b s).data = wrap b s.data := by
  cases b <;> simp [parenthesized, wrap]

theorem printFormula_empty_data (f : Formula) : (printFormula f "").data = chars f := by
  simp [printFormula_data]

theorem isBinary_eq (f : Formula) : isBinary f = decide (1 < rank f) := by
  cases f <;> simp [isBinary, rank]

theorem isBinary_and_gt (f : Formula) (p : Nat) (hp : 1 ≤ p) :
    (isBinary f && decide (p < rank f)) = decide (p < rank f) := by
  rw [isBinary_eq]
  by_cases h : p < rank f
  · have : 1 < rank f := by omega
    simp [h, this]
  · simp [h]

theorem isBinary_and_ge (f : Formula) (p : Nat) (hp : 1 ≤ p) :
    (isBinary f && decide (p + 1 ≤ rank f)) = decide (p < rank f) :=
  isBinary_and_gt f p hp

/-! ## The shape of the printed text: edges, spaces, negation signs -/

theorem edgesFree_cons {p : Char → Bool} {s : List Char} (c : Char) (hc : p c = false)
    (hs : edgesFree p s) : edgesFree p (c :: s) := by
  obtain ⟨h1, -, h3⟩ := hs
  refine ⟨by simp, ?_, ?_⟩
  · intro d hd
    simp only [List.head?_cons, Option.some.injEq] at hd
    rw [← hd]; exact hc
  · intro d hd
    cases s with
    | nil => exact absurd rfl h1
    | cons e s => exact h3 d (by simpa using hd)

theorem edgesFree_concat {p : Char → Bool} {s : List Char} (c : Char) (hc : p c = false)
    (hs : edgesFree p s) : edgesFree p (s ++ [c]) := by
  obtain ⟨h1, h2, -⟩ := hs
  refine ⟨by simp, ?_, ?_⟩
  · intro d hd
    cases s with
    | nil => exact absurd rfl h1
    | cons e s => exact h2 d (by simpa using hd)
  · intro d hd
    rw [List.getLast?_concat] at hd
    simp only [Option.some.injEq] at hd
    rw [← hd]; exact hc

theorem edgesFree_wrap {p : Char → Bool} {s : List Char} (hl : p '(' = false)
    (hr : p ')' = false) (b : Bool) (hs : edgesFree p s) : edgesFree p (wrap b s) := by
  cases b with
  | false => simpa [wrap] using hs
  | true =>
    have := edgesFree_cons '(' hl (edgesFree_concat ')' hr hs)
    simpa [wrap] using this

theorem edgesFree_append {p : Char → Bool} {a b : List Char} (mid : List Char)
    (ha : edgesFree p a) (hb : edgesFree p b) : edgesFree p (a ++ mid ++ b) := by
  obtain ⟨a1, a2, -⟩ := ha
  obtain ⟨b1, -, b3⟩ := hb
  refine ⟨by simp [a1], ?_, ?_⟩
  · intro d hd
    cases a with
    | nil => exact absurd rfl a1
    | cons e a => exact a2 d (by simpa using hd)
  · intro d hd
    rw [List.getLast?_append_of_ne_nil _ b1] at hd
    exact b3 d hd

/-- The rendering is not empty and has no character satisfying `p` at either end, when
`p` rejects the characters the printer emits itself and the atom names are not empty
and free of such characters. -/
theorem edgesFree_chars (p : Char → Bool) (hl : p '(' = false) (hr : p ')' = false)
    (hn : p '~' = false) (ht : p 't' = false) (hf : p 'f' = false) (he : p 'e' = false)
    (f : Formula) :
    (∀ name ∈ atoms f, name.data ≠ [] ∧ ∀ c ∈ name.data, p c = false) →
      edgesFree p (chars f) := by
  induction f with
  | True => intro _; exact ⟨by simp [chars], by simp [chars, ht], by simp [chars, he]⟩
  | False => intro _; exact ⟨by simp [chars], by simp [chars, hf], by simp [chars, he]⟩
  | Atom var =>
    intro h
    obtain ⟨h1, h2⟩ := h var (by simp [atoms])
    refine ⟨h1, ?_, ?_⟩
    · intro c hc
      exact h2 c (List.mem_of_mem_head? hc)
    · intro c hc
      exact h2 c (List.mem_of_getLast?_eq_some hc)
  | Not op ih =>
    intro h
    exact edgesFree_cons '~' hn (edgesFree_wrap hl hr _ (ih h))
  | And op1 op2 ih1 ih2 =>
    intro h
    exact edgesFree_append _
      (edgesFree_wrap hl hr _ (ih1 (fun n hn => h n (by simp [atoms, hn]))))
      (edgesFree_wrap hl hr _ (ih2 (fun n hn => h n (by simp [atoms, hn]))))
  | Or op1 op2 ih1 ih2 =>
    intro h
    exact edgesFree_append _
      (edgesFree_wrap hl hr _ (ih1 (fun n hn => h n (by simp [atoms, hn]))))
      (edgesFree_wrap hl hr _ (ih2 (fun n hn => h n (by simp [atoms, hn]))))
  | Imp op1 op2 ih1 ih2 =>
    intro h
    exact edgesFree_append _
      (edgesFree_wrap hl hr _ (ih1 (fun n hn => h n (by simp [atoms, hn]))))
      (edgesFree_wrap hl hr _ (ih2 (fun n hn => h n (by simp [atoms, hn]))))
  | Iff op1 op2 ih1 ih2 =>
    intro h
    exact edgesFree_append _
      (edgesFree_wrap hl hr _ (ih1 (fun n hn => h n (by simp [atoms, hn]))))
      (edgesFree_wrap hl hr _ (ih2 (fun n hn => h n (by simp [atoms, hn]))))

theorem mem_wrap {c : Char} {b : Bool} {s : List Char} (h : c ∈ wrap b s) :
    c ∈ s ∨ c = '(' ∨ c = ')' := by
  cases b <;> simp [wrap] at h
  · exact Or.inl h
  · rcases h with h | h | h
    · exact Or.inr (Or.inl h)
    · exact Or.inl h
    · exact Or.inr (Or.inr h)

theorem forall_wrap {q : Char → Prop} {s : List Char} (b : Bool) (hl : q '(') (hr : q ')')
    (hs : ∀ c ∈ s, q c) : ∀ c ∈ wrap b s, q c := by
  intro c hc
  rcases mem_wrap hc with h | h | h
  · exact hs c h
  · rw [h]; exact hl
  · rw [h]; exact hr

theorem forall_append3 {q : Char → Prop} {a m b : List Char} (ha : ∀ c ∈ a, q c)
    (hm : ∀ c ∈ m, q c) (hb : ∀ c ∈ b, q c) : ∀ c ∈ a ++ m ++ b, q c := by
  intro c hc
  simp only [List.mem_append] at hc
  rcases hc with (h | h) | h
  · exact ha c h
  · exact hm c h
  · exact hb c h

/-- A property of characters that holds for the characters of the fixed tokens and of
the atom names holds for every character of the rendering. -/
theorem forall_chars (q : Char → Prop) (hfix : ∀ c ∈ fixedChars, q c) (f : Formula) :
    (∀ name ∈ atoms f, ∀ c ∈ name.data, q c) → ∀ c ∈ chars f, q c := by
  have hl : q '(' := hfix _ (by decide)
  have hr : q ')' := hfix _ (by decide)
  have sub : ∀ l : List Char, (∀ c ∈ l, c ∈ fixedChars) → ∀ c ∈ l, q c :=
    fun l h c hc => hfix c (h c hc)
  induction f with
  | True => intro _; exact sub ['t', 'r', 'u', 'e'] (by decide)
  | False => intro _; exact sub ['f', 'a', 'l', 's', 'e'] (by decide)
  | Atom var => intro h c hc; exact h var (by simp [atoms]) c hc
  | Not op ih =>
    intro h c hc
    simp only [chars, List.mem_cons] at hc
    rcases hc with hc | hc
    · rw [hc]; exact hfix _ (by decide)
    · exact forall_wrap _ hl hr (ih h) c hc
  | And op1 op2 ih1 ih2 =>
    intro h
    exact forall_append3
      (forall_wrap _ hl hr (ih1 (fun n hn => h n (by simp [atoms, hn]))))
      (sub _ (by decide))
      (forall_wrap _ hl hr (ih2 (fun n hn => h n (by simp [atoms, hn]))))
  | Or op1 op2 ih1 ih2 =>
    intro h
    exact forall_append3
      (forall_wrap _ hl hr (ih1 (fun n hn => h n (by simp [atoms, hn]))))
      (sub _ (by decide))
      (forall_wrap _ hl hr (ih2 (fun n hn => h n (by simp [atoms, hn]))))
  | Imp op1 op2 ih1 ih2 =>
    intro h
    exact forall_append3
      (forall_wrap _ hl hr (ih1 (fun n hn => h n (by simp [atoms, hn]))))
      (sub _ (by decide))
      (forall_wrap _ hl hr (ih2 (fun n hn => h n (by simp [atoms, hn]))))
  | Iff op1 op2 ih1 ih2 =>
    intro h
    exact forall_append3
      (forall_wrap _ hl hr (ih1 (fun n hn => h n (by simp [atoms, hn]))))
      (sub _ (by decide))
      (forall_wrap _ hl hr (ih2 (fun n hn => h n (by simp [atoms, hn]))))

theorem split_append {x : Char} {a b pre post : List Char} (h : a ++ b = pre ++ x :: post) :
    (∃ m, a = pre ++ x :: m ∧ post = m ++ b) ∨ (∃ m, b = m ++ x :: post ∧ pre = a ++ m) := by
  rcases List.append_eq_append_iff.1 h with ⟨m, h1, h2⟩ | ⟨m, h1, h2⟩
  · exact Or.inr ⟨m, h2, h1⟩
  · cases m with
    | nil =>
      refine Or.inr ⟨[], ?_, ?_⟩
      · simpa using h2.symm
      · simpa using h1.symm
    | cons y m =>
      simp only [List.cons_append, List.cons.injEq] at h2
      obtain ⟨rfl, rfl⟩ := h2
      exact Or.inl ⟨m, h1, rfl⟩

theorem spacesAroundOps_append {a b : List Char} (ha : spacesAroundOps a)
    (hb : spacesAroundOps b) : spacesAroundOps (a ++ b) := by
  intro pre post h
  rcases split_append h with ⟨m, h1, rfl⟩ | ⟨m, h1, rfl⟩
  · rcases ha pre m h1 with ⟨op, hop, post1, rfl⟩ | h2
    · exact Or.inl ⟨op, hop, post1 ++ b, by simp⟩
    · exact Or.inr h2
  · rcases hb m post h1 with h2 | ⟨op, hop, pre1, rfl⟩
    · exact Or.inl h2
    · exact Or.inr ⟨op, hop, a ++ pre1, by simp⟩

theorem spacesAroundOps_of_not_mem {s : List Char} (h : ' ' ∉ s) : spacesAroundOps s := by
  intro pre post e
  exact absurd (by rw [e]; simp) h

theorem spacesAroundOps_sep (op : List Char) (hop : op ∈ opSymbols) (hsp : ' ' ∉ op) :
    spacesAroundOps (' ' :: (op ++ [' '])) := by
  intro pre post h
  cases pre with
  | nil =>
    simp only [List.nil_append, List.cons.injEq, true_and] at h
    exact Or.inl ⟨op, hop, [], h.symm⟩
  | cons y pre =>
    simp only [List.cons_append, List.cons.injEq] at h
    obtain ⟨rfl, h⟩ := h
    rcases split_append h with ⟨m, h1, -⟩ | ⟨m, h1, rfl⟩
    · exact absurd (by rw [h1]; simp) hsp
    · cases m with
      | nil => exact Or.inr ⟨op, hop, [], by simp⟩
      | cons z m =>
        have := congrArg List.length h1
        simp at this

theorem spacesAroundOps_wrap {s : List Char} (b : Bool) (hs : spacesAroundOps s) :
    spacesAroundOps (wrap b s) := by
  cases b with
  | false => simpa [wrap] using hs
  | true =>
    have h1 : spacesAroundOps ['('] := spacesAroundOps_of_not_mem (by decide)
    have h2 : spacesAroundOps [')'] := spacesAroundOps_of_not_mem (by decide)
    have := spacesAroundOps_append h1 (spacesAroundOps_append hs h2)
    simpa [wrap] using this

theorem spacesAroundOps_bin {a b : List Char} (op : List Char) (hop : op ∈ opSymbols)
    (hsp : ' ' ∉ op) (ha : spacesAroundOps a) (hb : spacesAroundOps b) :
    spacesAroundOps (a ++ ' ' :: (op ++ [' ']) ++ b) :=
  spacesAroundOps_append (spacesAroundOps_append ha (spacesAroundOps_sep op hop hsp)) hb

/-- In the rendering every space belongs to an operator written with a space on each
side, as soon as no atom name contains a space. -/
theorem spacesAroundOps_chars (f : Formula) :
    (∀ name ∈ atoms f, ' ' ∉ name.data) → spacesAroundOps (chars f) := by
  induction f with
  | True => intro _; exact spacesAroundOps_of_not_mem (by decide)
  | False => intro _; exact spacesAroundOps_of_not_mem (by decide)
  | Atom var => intro h; exact spacesAroundOps_of_not_mem (h var (by simp [atoms]))
  | Not op ih =>
    intro h
    have h1 : spacesAroundOps ['~'] := spacesAroundOps_of_not_mem (by decide)
    exact spacesAroundOps_append h1 (spacesAroundOps_wrap _ (ih h))
  | And op1 op2 ih1 ih2 =>
    intro h
    exact spacesAroundOps_bin ['&'] (by decide) (by decide)
      (spacesAroundOps_wrap _ (ih1 (fun n hn => h n (by simp [atoms, hn]))))
      (spacesAroundOps_wrap _ (ih2 (fun n hn => h n (by simp [atoms, hn]))))
  | Or op1 op2 ih1 ih2 =>
    intro h
    exact spacesAroundOps_bin ['|'] (by decide) (by decide)
      (spacesAroundOps_wrap _ (ih1 (fun n hn => h n (by simp [atoms, hn]))))
      (spacesAroundOps_wrap _ (ih2 (fun n hn => h n (by simp [atoms, hn]))))
  | Imp op1 op2 ih1 ih2 =>
    intro h
    exact spacesAroundOps_bin ['=', '>'] (by decide) (by decide)
      (spacesAroundOps_wrap _ (ih1 (fun n hn => h n (by simp [atoms, hn]))))
      (spacesAroundOps_wrap _ (ih2 (fun n hn => h n (by simp [atoms, hn]))))
  | Iff op1 op2 ih1 ih2 =>
    intro h
    exact spacesAroundOps_bin ['<', '=', '>'] (by decide) (by decide)
      (spacesAroundOps_wrap _ (ih1 (fun n hn => h n (by simp [atoms, hn]))))
      (spacesAroundOps_wrap _ (ih2 (fun n hn => h n (by simp [atoms, hn]))))

theorem followedByNonSpace_append {x : Char} {a b : List Char} (ha : followedByNonSpace x a)
    (hb : followedByNonSpace x b) : followedByNonSpace x (a ++ b) := by
  intro pre post h
  rcases split_append h with ⟨m, h1, rfl⟩ | ⟨m, h1, rfl⟩
  · obtain ⟨c, rest, rfl, hc⟩ := ha pre m h1
    exact ⟨c, rest ++ b, by simp, hc⟩
  · exact hb m post h1

theorem followedByNonSpace_of_not_mem {x : Char} {s : List Char} (h : x ∉ s) :
    followedByNonSpace x s := by
  intro pre post e
  exact absurd (by rw [e]; simp) h

theorem followedByNonSpace_cons {x : Char} {t : List Char} (c0 : Char)
    (ht : followedByNonSpace x t) (h0 : x = c0 → ∃ c rest, t = c :: rest ∧ c ≠ ' ') :
    followedByNonSpace x (c0 :: t) := by
  intro pre post h
  cases pre with
  | nil =>
    simp only [List.nil_append, List.cons.injEq] at h
    obtain ⟨rfl, rfl⟩ := h
    exact h0 rfl
  | cons y pre =>
    simp only [List.cons_append, List.cons.injEq] at h
    exact ht pre post h.2

theorem startsNonSpace_of_edgesFree {s : List Char}
    (h : edgesFree (fun c => c == ' ') s) : ∃ c rest, s = c :: rest ∧ c ≠ ' ' := by
  obtain ⟨h1, h2, -⟩ := h
  cases s with
  | nil => exact absurd rfl h1
  | cons c rest =>
    refine ⟨c, rest, rfl, ?_⟩
    have := h2 c rfl
    simpa using this

theorem followedByNonSpace_wrap {x : Char} {s : List Char} (b : Bool) (hl : x ≠ '(')
    (hr : x ≠ ')') (hs : followedByNonSpace x s) : followedByNonSpace x (wrap b s) := by
  cases b with
  | false => simpa [wrap] using hs
  | true =>
    have h2 : followedByNonSpace x [')'] := followedByNonSpace_of_not_mem (by simpa using hr)
    have := followedByNonSpace_cons '(' (followedByNonSpace_append hs h2)
      (fun e => absurd e hl)
    simpa [wrap] using this

/-- An operator between two operands: the spaces around it are followed by the
operator and by the right operand. -/
theorem followedByNonSpace_bin {x : Char} {a b : List Char} (op : List Char)
    (hop : ∃ c rest, op = c :: rest ∧ c ≠ ' ') (hx : x ∉ op)
    (ha : followedByNonSpace x a) (hb : followedByNonSpace x b)
    (hstart : ∃ c rest, b = c :: rest ∧ c ≠ ' ') :
    followedByNonSpace x (a ++ ' ' :: (op ++ [' ']) ++ b) := by
  have h1 : followedByNonSpace x (' ' :: b) := followedByNonSpace_cons ' ' hb (fun _ => hstart)
  have h2 : followedByNonSpace x (op ++ ' ' :: b) :=
    followedByNonSpace_append (followedByNonSpace_of_not_mem hx) h1
  have h3 : followedByNonSpace x (' ' :: (op ++ ' ' :: b)) :=
    followedByNonSpace_cons ' ' h2 (fun _ => by
      obtain ⟨c, rest, rfl, hc⟩ := hop
      exact ⟨c, rest ++ ' ' :: b, by simp, hc⟩)
  have := followedByNonSpace_append ha h3
  simpa using this

/-- In the rendering of a formula with non-empty, space-free atom names, every space
and, if no atom name contains one, every `~` is followed by a character other than a
space. -/
theorem followedByNonSpace_chars (x : Char) (hx : x = ' ' ∨ x = '~') (f : Formula) :
    (∀ name ∈ atoms f, name.data ≠ [] ∧ ∀ c ∈ name.data, (c == ' ') = false) →
    (∀ name ∈ atoms f, x ∉ name.data) → followedByNonSpace x (chars f) := by
  have hl : x ≠ '(' := by rcases hx with rfl | rfl <;> decide
  have hr : x ≠ ')' := by rcases hx with rfl | rfl <;> decide
  have edge : ∀ g : Formula,
      (∀ name ∈ atoms g, name.data ≠ [] ∧ ∀ c ∈ name.data, (c == ' ') = false) →
      ∀ b, ∃ c rest, wrap b (chars g) = c :: rest ∧ c ≠ ' ' := fun g hg b =>
    startsNonSpace_of_edgesFree (edgesFree_wrap (by decide) (by decide) b
      (edgesFree_chars _ (by decide) (by decide) (by decide) (by decide) (by decide)
        (by decide) g hg))
  induction f with
  | True =>
    intro _ _
    exact followedByNonSpace_of_not_mem (by rcases hx with rfl | rfl <;> decide)
  | False =>
    intro _ _
    exact followedByNonSpace_of_not_mem (by rcases hx with rfl | rfl <;> decide)
  | Atom var =>
    intro _ h
    exact followedByNonSpace_of_not_mem (h var (by simp [atoms]))
  | Not op ih =>
    intro h1 h2
    exact followedByNonSpace_cons '~' (followedByNonSpace_wrap _ hl hr (ih h1 h2))
      (fun _ => edge op h1 _)
  | And op1 op2 ih1 ih2 =>
    intro h1 h2
    have a1 : ∀ n, n ∈ atoms op1 → n ∈ atoms op1 ++ atoms op2 := fun n hn => by simp [hn]
    have b1 : ∀ n, n ∈ atoms op2 → n ∈ atoms op1 ++ atoms op2 := fun n hn => by simp [hn]
    exact followedByNonSpace_bin ['&'] ⟨'&', [], rfl, by decide⟩
      (by rcases hx with rfl | rfl <;> decide)
      (followedByNonSpace_wrap _ hl hr
        (ih1 (fun n hn => h1 n (a1 n hn)) (fun n hn => h2 n (a1 n hn))))
      (followedByNonSpace_wrap _ hl hr
        (ih2 (fun n hn => h1 n (b1 n hn)) (fun n hn => h2 n (b1 n hn))))
      (edge op2 (fun n hn => h1 n (b1 n hn)) _)
  | Or op1 op2 ih1 ih2 =>
    intro h1 h2
    have a1 : ∀ n, n ∈ atoms op1 → n ∈ atoms op1 ++ atoms op2 := fun n hn => by simp [hn]
    have b1 : ∀ n, n ∈ atoms op2 → n ∈ atoms op1 ++ atoms op2 := fun n hn => by simp [hn]
    exact followedByNonSpace_bin ['|'] ⟨'|', [], rfl, by decide⟩
      (by rcases hx with rfl | rfl <;> decide)
      (followedByNonSpace_wrap _ hl hr
        (ih1 (fun n hn => h1 n (a1 n hn)) (fun n hn => h2 n (a1 n hn))))
      (followedByNonSpace_wrap _ hl hr
        (ih2 (fun n hn => h1 n (b1 n hn)) (fun n hn => h2 n (b1 n hn))))
      (edge op2 (fun n hn => h1 n (b1 n hn)) _)
  | Imp op1 op2 ih1 ih2 =>
    intro h1 h2
    have a1 : ∀ n, n ∈ atoms op1 → n ∈ atoms op1 ++ atoms op2 := fun n hn => by simp [hn]
    have b1 : ∀ n, n ∈ atoms op2 → n ∈ atoms op1 ++ atoms op2 := fun n hn => by simp [hn]
    exact followedByNonSpace_bin ['=', '>'] ⟨'=', ['>'], rfl, by decide⟩
      (by rcases hx with rfl | rfl <;> decide)
      (followedByNonSpace_wrap _ hl hr
        (ih1 (fun n hn => h1 n (a1 n hn)) (fun n hn => h2 n (a1 n hn))))
      (followedByNonSpace_wrap _ hl hr
        (ih2 (fun n hn => h1 n (b1 n hn)) (fun n hn => h2 n (b1 n hn))))
      (edge op2 (fun n hn => h1 n (b1 n hn)) _)
  | Iff op1 op2 ih1 ih2 =>
    intro h1 h2
    have a1 : ∀ n, n ∈ atoms op1 → n ∈ atoms op1 ++ atoms op2 := fun n hn => by simp [hn]
    have b1 : ∀ n, n ∈ atoms op2 → n ∈ atoms op1 ++ atoms op2 := fun n hn => by simp [hn]
    exact followedByNonSpace_bin ['<', '=', '>'] ⟨'<', ['=', '>'], rfl, by decide⟩
      (by rcases hx with rfl | rfl <;> decide)
      (followedByNonSpace_wrap _ hl hr
        (ih1 (fun n hn => h1 n (a1 n hn)) (fun n hn => h2 n (a1 n hn))))
      (followedByNonSpace_wrap _ hl hr
        (ih2 (fun n hn => h1 n (b1 n hn)) (fun n hn => h2 n (b1 n hn))))
      (edge op2 (fun n hn => h1 n (b1 n hn)) _)

theorem count_space_wrap (b : Bool) (s : List Char) :
    (wrap b s).count ' ' = s.count ' ' := by
  cases b <;> simp [wrap, List.count_cons, List.count_append]

/-- The rendering holds two spaces for each binary node and no other, as soon as no
atom name contains a space. -/
theorem count_space_chars (f : Formula) :
    (∀ name ∈ atoms f, ' ' ∉ name.data) → (chars f).count ' ' = 2 * binaryNodes f := by
  have bin : ∀ (b1 b2 : Bool) (sep : List Char) (l r : Formula), sep.count ' ' = 2 →
      (chars l).count ' ' = 2 * binaryNodes l → (chars r).count ' ' = 2 * binaryNodes r →
      (wrap b1 (chars l) ++ sep ++ wrap b2 (chars r)).count ' '
        = 2 * (binaryNodes l + binaryNodes r + 1) := by
    intro b1 b2 sep l r hsep hl hr
    rw [List.count_append, List.count_append, count_space_wrap, count_space_wrap, hsep, hl, hr]
    omega
  induction f with
  | True => intro _; decide
  | False => intro _; decide
  | Atom var =>
    intro h
    simp [chars, binaryNodes, List.count_eq_zero_of_not_mem (h var (by simp [atoms]))]
  | Not op ih =>
    intro h
    have e0 : (chars (Formula.Not op)).count ' '
        = (wrap (decide (1 < rank op)) (chars op)).count ' ' := by
      show (['~'] ++ wrap (decide (1 < rank op)) (chars op)).count ' ' = _
      rw [List.count_append]
      have : List.count ' ' ['~'] = 0 := by decide
      rw [this, Nat.zero_add]
    rw [e0, count_space_wrap, ih h]
    rfl
  | And op1 op2 ih1 ih2 =>
    intro h
    exact bin _ _ _ op1 op2 (by decide)
      (ih1 (fun n hn => h n (by simp [atoms, hn]))) (ih2 (fun n hn => h n (by simp [atoms, hn])))
  | Or op1 op2 ih1 ih2 =>
    intro h
    exact bin _ _ _ op1 op2 (by decide)
      (ih1 (fun n hn => h n (by simp [atoms, hn]))) (ih2 (fun n hn => h n (by simp [atoms, hn])))
  | Imp op1 op2 ih1 ih2 =>
    intro h
    exact bin _ _ _ op1 op2 (by decide)
      (ih1 (fun n hn => h n (by simp [atoms, hn]))) (ih2 (fun n hn => h n (by simp [atoms, hn])))
  | Iff op1 op2 ih1 ih2 =>
    intro h
    exact bin _ _ _ op1 op2 (by decide)
      (ih1 (fun n hn => h n (by simp [atoms, hn]))) (ih2 (fun n hn => h n (by simp [atoms, hn])))

/-- The text of a binary node: the left operand, the operator between two single
spaces, the right operand; each operand wrapped by the rank of its top connective. -/
theorem binary_text_ranked (sep : String) (mk : Formula → Formula → Formula) (p : Nat)
    (hmk : ∀ l r, chars (mk l r) = wrap (decide (p < rank l)) (chars l) ++ sep.data
      ++ wrap (decide (p - 1 < rank r)) (chars r)) (l r : Formula) :
    printFormula (mk l r) "" =
      parenthesized (decide (p < rank l)) (printFormula l "") ++ sep ++
        parenthesized (decide (p - 1 < rank r)) (printFormula r "") := by
  apply String.ext
  simp [printFormula_empty_data, parenthesized_data, hmk]

/-! ## The claims -/

/-- C1: for every formula whose atom names are identifiers (non-empty, made of
identifier characters, neither `true` nor `false`), the reference grammar parses the
text printed for the formula, and the result is the formula itself. -/
theorem C1_roundtrip_identifier_atoms (f : Formula) (h : goodNames f = true) :
    parse (printFormula f "") = some f :=
  parse_print_of_goodNames f h

theorem C1_roundtrip_identifier_atoms_witness :
    goodNames (.Iff (.Imp (.And (.Atom "a") (.Or (.Atom "b1") (.Not (.Atom "c_2")))) .False)
        (.Iff .True (.Atom "d"))) = true ∧
      parse (printFormula (.Iff (.Imp (.And (.Atom "a") (.Or (.Atom "b1") (.Not (.Atom "c_2"))))
        .False) (.Iff .True (.Atom "d"))) "") =
      some (.Iff (.Imp (.And (.Atom "a") (.Or (.Atom "b1") (.Not (.Atom "c_2")))) .False)
        (.Iff .True (.Atom "d"))) :=
  ⟨by decide, C1_roundtrip_identifier_atoms _ (by decide)⟩

/-- C2, as stated, fails: the atom named `p & q` is printed verbatim and read back as
a conjunction of two atoms. -/
theorem C2_counterexample :
    parse (printFormula (.Atom "p & q") "") = some (.And (.Atom "p") (.Atom "q")) ∧
      parse (printFormula (.Atom "p & q") "") ≠ some (.Atom "p & q") := by
  decide

/-- C2, amended: the round trip holds for every formula each of whose atom names is
read by the lexer of the grammar as one atom token of that very name. -/
theorem C2_roundtrip_lexable_atoms (f : Formula)
    (h : ∀ name ∈ atoms f, tokenize name.data = some [Token.ATOM name]) :
    parse (printFormula f "") = some f :=
  parse_print_of_goodNames f
    ((goodNames_iff f).2 (fun name hn => (validName_iff_tokenize name).2 (h name hn)))

theorem C2_roundtrip_lexable_atoms_witness :
    parse (printFormula (.And (.Atom "a") (.And (.Not (.Atom "b")) (.Atom "c"))) "") =
      some (.And (.Atom "a") (.And (.Not (.Atom "b")) (.Atom "c"))) :=
  C2_roundtrip_lexable_atoms _ (by decide)

/-- C3: for every formula with identifier atom names, removing an opening and a later
closing parenthesis from the printed text never leaves a text that the reference
grammar parses back to the formula: no emitted pair is redundant. -/
theorem C3_no_redundant_parentheses (f : Formula) (hg : goodNames f = true)
    (pre mid post : List Char)
    (h : (printFormula f "").data = pre ++ '(' :: (mid ++ ')' :: post)) :
    parse (String.mk (pre ++ (mid ++ post))) ≠ some f := by
  intro hp
  have h1 := parse_count hp
  have h2 : countLP (toks f) = (chars f).count '(' := tokenize_countLP (tokenize_chars f hg)
  have h3 : chars f = pre ++ '(' :: (mid ++ ')' :: post) := by
    rw [← h]; simp [printFormula_data]
  rw [h2, h3] at h1
  simp [List.count_append, List.count_cons] at h1

theorem C3_no_redundant_parentheses_witness :
    parse (String.mk (['a', ' ', '&', ' '] ++ (['b', ' ', '&', ' ', 'c'] ++ []))) ≠
      some (.And (.Atom "a") (.And (.Atom "b") (.Atom "c"))) :=
  C3_no_redundant_parentheses (.And (.Atom "a") (.And (.Atom "b") (.Atom "c"))) (by decide)
    ['a', ' ', '&', ' '] ['b', ' ', '&', ' ', 'c'] [] (by decide)

/-- C4: the left operand of a binary node of rank `P` (`And` 2, `Or` 3, `Imp` 4,
`Iff` 5) is printed in parentheses exactly when it is a binary connective of rank
strictly greater than `P`; the right operand is shown with the tests of the code.
`Or(And(p,q),r)` prints `p & q | r`. -/
theorem C4_left_operand_rule (l r : Formula) :
    printFormula (.And l r) "" =
        parenthesized (isBinary l && decide (2 < rank l)) (printFormula l "") ++ " & " ++
          parenthesized (decide (getType r = T_OR ∨ getType r = T_IMP ∨ getType r = T_IFF
            ∨ getType r = T_AND)) (printFormula r "") ∧
      printFormula (.Or l r) "" =
        parenthesized (isBinary l && decide (3 < rank l)) (printFormula l "") ++ " | " ++
          parenthesized (decide (getType r = T_IMP ∨ getType r = T_IFF ∨ getType r = T_OR))
            (printFormula r "") ∧
      printFormula (.Imp l r) "" =
        parenthesized (isBinary l && decide (4 < rank l)) (printFormula l "") ++ " => " ++
          parenthesized (decide (getType r = T_IMP ∨ getType r = T_IFF)) (printFormula r "") ∧
      printFormula (.Iff l r) "" =
        parenthesized (isBinary l && decide (5 < rank l)) (printFormula l "") ++ " <=> " ++
          parenthesized (decide (getType r = T_IFF)) (printFormula r "") ∧
      printFormula (.Or (.And (.Atom "p") (.Atom "q")) (.Atom "r")) "" = "p & q | r" := by
  have a1 : decide (getType r = T_OR ∨ getType r = T_IMP ∨ getType r = T_IFF
      ∨ getType r = T_AND) = decide (1 < rank r) := by simp only [type_gt1b]
  have a2 : decide (getType r = T_IMP ∨ getType r = T_IFF ∨ getType r = T_OR)
      = decide (2 < rank r) := by simp only [type_gt2b]
  have a3 : decide (getType r = T_IMP ∨ getType r = T_IFF) = decide (3 < rank r) := by
    simp only [type_gt3]
  have a4 : decide (getType r = T_IFF) = decide (4 < rank r) := by simp only [type_gt4]
  refine ⟨?_, ?_, ?_, ?_, by decide⟩
  · apply String.ext
    simp only [String.data_append, printFormula_empty_data, parenthesized_data, chars,
      isBinary_and_gt _ _ (by omega : 1 ≤ 2), a1]
  · apply String.ext
    simp only [String.data_append, printFormula_empty_data, parenthesized_data, chars,
      isBinary_and_gt _ _ (by omega : 1 ≤ 3), a2]
  · apply String.ext
    simp only [String.data_append, printFormula_empty_data, parenthesized_data, chars,
      isBinary_and_gt _ _ (by omega : 1 ≤ 4), a3]
  · apply String.ext
    simp only [String.data_append, printFormula_empty_data, parenthesized_data, chars,
      isBinary_and_gt _ _ (by omega : 1 ≤ 5), a4]

/-- C5: the right operand of a binary node of rank `P` is printed in parentheses
exactly when it is a binary connective of rank at least `P`; the left operand is
shown with the tests of the code. A right operand with the connective of its parent
is always wrapped: `And(a, And(b,c))` prints `a & (b & c)`, and `And(p, Or(q,r))`
prints `p & (q | r)`. -/
theorem C5_right_operand_rule (l r : Formula) :
    printFormula (.And l r) "" =
        parenthesized (decide (getType l = T_OR ∨ getType l = T_IMP ∨ getType l = T_IFF))
          (printFormula l "") ++ " & " ++
          parenthesized (isBinary r && decide (2 ≤ rank r)) (printFormula r "") ∧
      printFormula (.Or l r) "" =
        parenthesized (decide (getType l = T_IMP ∨ getType l = T_IFF)) (printFormula l "")
          ++ " | " ++ parenthesized (isBinary r && decide (3 ≤ rank r)) (printFormula r "") ∧
      printFormula (.Imp l r) "" =
        parenthesized (decide (getType l = T_IFF)) (printFormula l "") ++ " => " ++
          parenthesized (isBinary r && decide (4 ≤ rank r)) (printFormula r "") ∧
      printFormula (.Iff l r) "" =
        printFormula l "" ++ " <=> " ++
          parenthesized (isBinary r && decide (5 ≤ rank r)) (printFormula r "") ∧
      printFormula (.And (.Atom "a") (.And (.Atom "b") (.Atom "c"))) "" = "a & (b & c)" ∧
      printFormula (.And (.Atom "p") (.Or (.Atom "q") (.Atom "r"))) "" = "p & (q | r)" := by
  have h5 : decide (5 < rank l) = false := by
    have := rank_le_five l
    simp; omega
  have a2 : decide (getType l = T_OR ∨ getType l = T_IMP ∨ getType l = T_IFF)
      = decide (2 < rank l) := by simp only [type_gt2]
  have a3 : decide (getType l = T_IMP ∨ getType l = T_IFF) = decide (3 < rank l) := by
    simp only [type_gt3]
  have a4 : decide (getType l = T_IFF) = decide (4 < rank l) := by simp only [type_gt4]
  refine ⟨?_, ?_, ?_, ?_, by decide, by decide⟩
  · apply String.ext
    simp only [String.data_append, printFormula_empty_data, parenthesized_data, chars,
      isBinary_and_ge _ _ (by omega : 1 ≤ 1), a2]
  · apply String.ext
    simp only [String.data_append, printFormula_empty_data, parenthesized_data, chars,
      isBinary_and_ge _ _ (by omega : 1 ≤ 2), a3]
  · apply String.ext
    simp only [String.data_append, printFormula_empty_data, parenthesized_data, chars,
      isBinary_and_ge _ _ (by omega : 1 ≤ 3), a4]
  · apply String.ext
    simp only [String.data_append, printFormula_empty_data, parenthesized_data, chars,
      isBinary_and_ge _ _ (by omega : 1 ≤ 4), h5, wrap, Bool.false_eq_true, if_false]

/-- C6: `Not(f)` prints `~` immediately followed by the rendering of `f`, which is
in parentheses exactly when `f` is an `And`, `Or`, `Imp` or `Iff` node:
`Not(And(a,b))` prints `~(a & b)` and `Not(Atom a)` prints `~a`. -/
theorem C6_negation_rule (f : Formula) :
    printFormula (.Not f) "" = "~" ++ parenthesized (isBinary f) (printFormula f "") ∧
      printFormula (.Not (.And (.Atom "a") (.Atom "b"))) "" = "~(a & b)" ∧
      printFormula (.Not (.Atom "a")) "" = "~a" ∧
      printFormula (.Not (.Not .True)) "" = "~~true" := by
  refine ⟨?_, by decide, by decide, by decide⟩
  apply String.ext
  simp only [String.data_append, printFormula_empty_data, parenthesized_data, chars, isBinary_eq]
  rfl

/-- C7: for every string `s`, the empty one included, `Atom(s)` is a formula and prints
exactly `s`; `True` prints `true` and `False` prints `false`. -/
theorem C7_leaf_rendering (s : String) :
    printFormula (.Atom s) "" = s ∧ printFormula (.Atom "") "" = "" ∧
      printFormula .True "" = "true" ∧ printFormula .False "" = "false" := by
  refine ⟨?_, by decide, by decide, by decide⟩
  apply String.ext
  simp [printFormula]

/-- C8, as stated, fails: no atom name of `And(Atom(""), Atom("x"))` contains a
whitespace character, and its rendering ` & x` begins with a space. -/
theorem C8_counterexample :
    (∀ name ∈ atoms (.And (.Atom "") (.Atom "x")), ∀ c ∈ name.data, c.isWhitespace = false) ∧
      (printFormula (.And (.Atom "") (.Atom "x")) "").data.head? = some ' ' ∧
      Char.isWhitespace ' ' = true := by
  decide

/-- C8, amended: for every formula whose atom names are not empty and contain no
whitespace character, the printed text is not empty, neither begins nor ends with a
whitespace character, and contains no line break. -/
theorem C8_no_stray_whitespace (f : Formula)
    (h : ∀ name ∈ atoms f, name.data ≠ [] ∧ ∀ c ∈ name.data, c.isWhitespace = false) :
    (printFormula f "").data ≠ [] ∧
      (∀ c, (printFormula f "").data.head? = some c → c.isWhitespace = false) ∧
      (∀ c, (printFormula f "").data.getLast? = some c → c.isWhitespace = false) ∧
      '\n' ∉ (printFormula f "").data ∧ '\r' ∉ (printFormula f "").data := by
  rw [printFormula_empty_data]
  obtain ⟨h1, h2, h3⟩ := edgesFree_chars Char.isWhitespace (by decide) (by decide) (by decide)
    (by decide) (by decide) (by decide) f h
  have h4 := forall_chars (fun c => c.isWhitespace = true → c = ' ') (by decide) f
    (fun name hn c hc hw => by
      have := (h name hn).2 c hc
      rw [this] at hw
      exact absurd hw (by decide))
  refine ⟨h1, h2, h3, ?_, ?_⟩
  · intro hm
    exact absurd (h4 _ hm (by decide)) (by decide)
  · intro hm
    exact absurd (h4 _ hm (by decide)) (by decide)

theorem C8_no_stray_whitespace_witness :
    (printFormula (.Imp (.Atom "p") (.Not (.Atom "q"))) "").data ≠ [] ∧
      (∀ c, (printFormula (.Imp (.Atom "p") (.Not (.Atom "q"))) "").data.head? = some c →
        c.isWhitespace = false) ∧
      (∀ c, (printFormula (.Imp (.Atom "p") (.Not (.Atom "q"))) "").data.getLast? = some c →
        c.isWhitespace = false) ∧
      '\n' ∉ (printFormula (.Imp (.Atom "p") (.Not (.Atom "q"))) "").data ∧
      '\r' ∉ (printFormula (.Imp (.Atom "p") (.Not (.Atom "q"))) "").data :=
  C8_no_stray_whitespace (.Imp (.Atom "p") (.Not (.Atom "q"))) (by decide)

/-- C9, as stated, fails: the atom names of `And(And(Atom("a"), Atom("")), Atom("b"))`
and of `And(Not(Atom("")), Atom("b"))` contain no space, yet the first prints
`a &  & b`, with two adjacent spaces, and the second `~ & b`, with a space right after
the negation sign. -/
theorem C9_counterexample :
    (∀ name ∈ atoms (.And (.And (.Atom "a") (.Atom "")) (.Atom "b")), ' ' ∉ name.data) ∧
      (printFormula (.And (.And (.Atom "a") (.Atom "")) (.Atom "b")) "").data =
        ['a', ' ', '&'] ++ ' ' :: ' ' :: ['&', ' ', 'b'] ∧
      (∀ name ∈ atoms (.And (.Not (.Atom "")) (.Atom "b")), ' ' ∉ name.data) ∧
      (printFormula (.And (.Not (.Atom "")) (.Atom "b")) "").data =
        [] ++ '~' :: ' ' :: ['&', ' ', 'b'] := by
  decide

/-- C9, amended: for every formula whose atom names are not empty and contain no
space: every space of the rendering is the space in front of or behind an operator
symbol `&`, `|`, `=>`, `<=>` that has a space on its other side too; no two spaces are
adjacent; the rendering of its negation is `~` immediately followed by `(` when the
formula is a binary node and otherwise by the first character of the rendering of the
formula, in both cases not a space; when no atom name contains `~`, every `~` of
the rendering is immediately followed by a character other than a space; every binary
node prints its left operand, then its operator as ` & `, ` | `, ` => ` or ` <=> `, then
its right operand; the rendering holds exactly two spaces for each binary node; and it
neither begins nor ends with a space. -/
theorem C9_separators (f : Formula)
    (h : ∀ name ∈ atoms f, name.data ≠ [] ∧ ' ' ∉ name.data) :
    spacesAroundOps (printFormula f "").data ∧
      (∀ pre post, (printFormula f "").data ≠ pre ++ ' ' :: ' ' :: post) ∧
      (∃ c rest, (printFormula (.Not f) "").data = '~' :: c :: rest ∧ c ≠ ' ' ∧
        (isBinary f = true → c = '(') ∧
        (isBinary f = false → (printFormula f "").data.head? = some c)) ∧
      ((∀ name ∈ atoms f, '~' ∉ name.data) →
        followedByNonSpace '~' (printFormula f "").data) ∧
      (∀ l r : Formula,
        printFormula (.And l r) "" =
            parenthesized (decide (2 < rank l)) (printFormula l "") ++ " & " ++
              parenthesized (decide (1 < rank r)) (printFormula r "") ∧
          printFormula (.Or l r) "" =
            parenthesized (decide (3 < rank l)) (printFormula l "") ++ " | " ++
              parenthesized (decide (2 < rank r)) (printFormula r "") ∧
          printFormula (.Imp l r) "" =
            parenthesized (decide (4 < rank l)) (printFormula l "") ++ " => " ++
              parenthesized (decide (3 < rank r)) (printFormula r "") ∧
          printFormula (.Iff l r) "" =
            parenthesized (decide (5 < rank l)) (printFormula l "") ++ " <=> " ++
              parenthesized (decide (4 < rank r)) (printFormula r "")) ∧
      (printFormula f "").data.count ' ' = 2 * binaryNodes f ∧
      (∀ c, (printFormula f "").data.head? = some c → c ≠ ' ') ∧
      (∀ c, (printFormula f "").data.getLast? = some c → c ≠ ' ') := by
  have hbin : ∀ l r : Formula,
      printFormula (.And l r) "" =
          parenthesized (decide (2 < rank l)) (printFormula l "") ++ " & " ++
            parenthesized (decide (1 < rank r)) (printFormula r "") ∧
        printFormula (.Or l r) "" =
          parenthesized (decide (3 < rank l)) (printFormula l "") ++ " | " ++
            parenthesized (decide (2 < rank r)) (printFormula r "") ∧
        printFormula (.Imp l r) "" =
          parenthesized (decide (4 < rank l)) (printFormula l "") ++ " => " ++
            parenthesized (decide (3 < rank r)) (printFormula r "") ∧
        printFormula (.Iff l r) "" =
          parenthesized (decide (5 < rank l)) (printFormula l "") ++ " <=> " ++
            parenthesized (decide (4 < rank r)) (printFormula r "") := fun l r =>
    ⟨binary_text_ranked " & " Formula.And 2 (fun _ _ => rfl) l r,
      binary_text_ranked " | " Formula.Or 3 (fun _ _ => rfl) l r,
      binary_text_ranked " => " Formula.Imp 4 (fun _ _ => rfl) l r,
      binary_text_ranked " <=> " Formula.Iff 5 (fun _ _ => rfl) l r⟩
  have h1 : ∀ name ∈ atoms f, name.data ≠ [] ∧ ∀ c ∈ name.data, (c == ' ') = false := by
    intro name hn
    refine ⟨(h name hn).1, fun c hc => ?_⟩
    have : c ≠ ' ' := fun e => (h name hn).2 (e ▸ hc)
    simpa using this
  have hsp := followedByNonSpace_chars ' ' (Or.inl rfl) f h1 (fun name hn => (h name hn).2)
  have hedge := edgesFree_chars (fun c => c == ' ') (by decide) (by decide) (by decide)
    (by decide) (by decide) (by decide) f h1
  have hcount := count_space_chars f (fun name hn => (h name hn).2)
  refine ⟨?_, ?_, ?_, ?_, hbin, ?_, ?_, ?_⟩
  case refine_5 => rw [printFormula_empty_data]; exact hcount
  case refine_6 =>
    rw [printFormula_empty_data]
    intro c hc e
    have := hedge.2.1 c hc
    rw [e] at this
    exact absurd this (by decide)
  case refine_7 =>
    rw [printFormula_empty_data]
    intro c hc e
    have := hedge.2.2 c hc
    rw [e] at this
    exact absurd this (by decide)
  all_goals simp only [printFormula_empty_data]
  · exact spacesAroundOps_chars f (fun name hn => (h name hn).2)
  · intro pre post e
    obtain ⟨c, rest, e1, hc⟩ := hsp pre (' ' :: post) e
    simp only [List.cons.injEq] at e1
    exact hc e1.1.symm
  · obtain ⟨c, rest, e, hc⟩ := startsNonSpace_of_edgesFree hedge
    cases hb : isBinary f with
    | true =>
      refine ⟨'(', chars f ++ [')'], ?_, by decide, fun _ => rfl, fun hf => by cases hf⟩
      have : decide (1 < rank f) = true := by rw [← isBinary_eq]; exact hb
      simp [chars, wrap, this]
    | false =>
      refine ⟨c, rest, ?_, hc, fun hf => (by cases hf), fun _ => (by rw [e]; rfl)⟩
      have : decide (1 < rank f) = false := by rw [← isBinary_eq]; exact hb
      simp [chars, wrap, this, e]
  · intro ht
    exact followedByNonSpace_chars '~' (Or.inr rfl) f h1 ht

theorem C9_separators_witness :
    spacesAroundOps (printFormula (.Or (.Not (.And (.Atom "a") (.Atom "b"))) .True) "").data ∧
      (∀ pre post, (printFormula (.Or (.Not (.And (.Atom "a") (.Atom "b"))) .True) "").data ≠
        pre ++ ' ' :: ' ' :: post) ∧
      followedByNonSpace '~'
        (printFormula (.Or (.Not (.And (.Atom "a") (.Atom "b"))) .True) "").data :=
  ⟨(C9_separators (.Or (.Not (.And (.Atom "a") (.Atom "b"))) .True) (by decide)).1,
    (C9_separators (.Or (.Not (.And (.Atom "a") (.Atom "b"))) .True) (by decide)).2.1,
    (C9_separators (.Or (.Not (.And (.Atom "a") (.Atom "b"))) .True) (by decide)).2.2.2.1
      (by decide)⟩

/-- C10: whenever the reference parser accepts the text printed for a formula (atom
names arbitrary) and returns a tree, it accepts the text printed for that tree and
returns the same tree again. -/
theorem C10_reparse_idempotent (f g : Formula) (h : parse (printFormula f "") = some g) :
    parse (printFormula g "") = some g :=
  parse_print_of_goodNames g (parse_goodNames h)

theorem C10_reparse_idempotent_witness :
    parse (printFormula (.And (.Atom "p | q") (.Atom " r ")) "") =
        some (.Or (.Atom "p") (.And (.Atom "q") (.Atom "r"))) ∧
      parse (printFormula (.Or (.Atom "p") (.And (.Atom "q") (.Atom "r"))) "") =
        some (.Or (.Atom "p") (.And (.Atom "q") (.Atom "r"))) :=
  ⟨by decide, C10_reparse_idempotent (.And (.Atom "p | q") (.Atom " r ")) _ (by decide)⟩

/-- With the sink of the nested calls known, the depth-bounded printer succeeds
exactly when the bound is at least the height of the tree. -/
theorem printFormulaDepth_eq (f : Formula) :
    ∀ d ostr, printFormulaDepth d f ostr =
      if height f ≤ d then some (printFormula f ostr) else none := by
  induction f with
  | True => intro d ostr; simp [printFormulaDepth, printFormula, height]
  | False => intro d ostr; simp [printFormulaDepth, printFormula, height]
  | Atom var => intro d ostr; simp [printFormulaDepth, printFormula, height]
  | Not op ih =>
    intro d ostr
    cases d with
    | zero => simp [printFormulaDepth, height]
    | succ d =>
      simp only [printFormulaDepth, printFormula, height, ih, Nat.add_le_add_iff_right]
      by_cases h : height op ≤ d <;> simp [h]
  | And op1 op2 ih1 ih2 =>
    intro d ostr
    cases d with
    | zero => simp [printFormulaDepth, height]
    | succ d =>
      simp only [printFormulaDepth, printFormula, height, ih1, ih2, Nat.add_le_add_iff_right,
        max_le_iff]
      by_cases h1 : height op1 ≤ d <;> by_cases h2 : height op2 ≤ d <;> simp [h1, h2]
  | Or op1 op2 ih1 ih2 =>
    intro d ostr
    cases d with
    | zero => simp [printFormulaDepth, height]
    | succ d =>
      simp only [printFormulaDepth, printFormula, height, ih1, ih2, Nat.add_le_add_iff_right,
        max_le_iff]
      by_cases h1 : height op1 ≤ d <;> by_cases h2 : height op2 ≤ d <;> simp [h1, h2]
  | Imp op1 op2 ih1 ih2 =>
    intro d ostr
    cases d with
    | zero => simp [printFormulaDepth, height]
    | succ d =>
      simp only [printFormulaDepth, printFormula, height, ih1, ih2, Nat.add_le_add_iff_right,
        max_le_iff]
      by_cases h1 : height op1 ≤ d <;> by_cases h2 : height op2 ≤ d <;> simp [h1, h2]
  | Iff op1 op2 ih1 ih2 =>
    intro d ostr
    cases d with
    | zero => simp [printFormulaDepth, height]
    | succ d =>
      simp only [printFormulaDepth, printFormula, height, ih1, ih2, Nat.add_le_add_iff_right,
        max_le_iff]
      by_cases h1 : height op1 ≤ d <;> by_cases h2 : height op2 ≤ d <;> simp [h1, h2]

/-! ## Printing through references -/

theorem getTypeAt_of_expand {d : Nat} {mem : List Node} {p : Nat} {f : Formula}
    (h : expand d mem p = some f) : getTypeAt mem p = some (getType f) := by
  cases d with
  | zero => simp [expand] at h
  | succ d =>
    simp only [expand] at h
    unfold getTypeAt
    cases hn : mem[p]? with
    | none => simp [hn] at h
    | some node =>
      simp only [hn] at h
      cases node with
      | True => simp at h; subst h; rfl
      | False => simp at h; subst h; rfl
      | Atom var => simp at h; subst h; rfl
      | Not op =>
        cases h1 : expand d mem op with
        | none => simp [h1] at h
        | some g => simp [h1] at h; subst h; rfl
      | And op1 op2 =>
        cases h1 : expand d mem op1 <;> cases h2 : expand d mem op2 <;> simp [h1, h2] at h
        subst h; rfl
      | Or op1 op2 =>
        cases h1 : expand d mem op1 <;> cases h2 : expand d mem op2 <;> simp [h1, h2] at h
        subst h; rfl
      | Imp op1 op2 =>
        cases h1 : expand d mem op1 <;> cases h2 : expand d mem op2 <;> simp [h1, h2] at h
        subst h; rfl
      | Iff op1 op2 =>
        cases h1 : expand d mem op1 <;> cases h2 : expand d mem op2 <;> simp [h1, h2] at h
        subst h; rfl

/-- Printing through a reference appends what printing the tree it stands for appends. -/
theorem printFormulaAt_of_expand (d : Nat) :
    ∀ (mem : List Node) (p : Nat) (f : Formula), expand d mem p = some f →
      ∀ ostr, printFormulaAt d mem p ostr = some (printFormula f ostr) := by
  induction d with
  | zero => intro mem p f h; simp [expand] at h
  | succ d ih =>
    intro mem p f h ostr
    simp only [expand] at h
    simp only [printFormulaAt]
    cases hn : mem[p]? with
    | none => simp [hn] at h
    | some node =>
      simp only [hn] at h
      cases node with
      | True => simp at h; subst h; simp [printFormula]
      | False => simp at h; subst h; simp [printFormula]
      | Atom var => simp at h; subst h; simp [printFormula]
      | Not op =>
        cases h1 : expand d mem op with
        | none => simp [h1] at h
        | some g =>
          simp [h1] at h; subst h
          simp only [getTypeAt_of_expand h1, ih mem op g h1, printFormula]
      | And op1 op2 =>
        cases h1 : expand d mem op1 <;> cases h2 : expand d mem op2 <;> simp [h1, h2] at h
        subst h
        simp only [getTypeAt_of_expand h1, getTypeAt_of_expand h2, ih mem _ _ h1,
          ih mem _ _ h2, printFormula]
      | Or op1 op2 =>
        cases h1 : expand d mem op1 <;> cases h2 : expand d mem op2 <;> simp [h1, h2] at h
        subst h
        simp only [getTypeAt_of_expand h1, getTypeAt_of_expand h2, ih mem _ _ h1,
          ih mem _ _ h2, printFormula]
      | Imp op1 op2 =>
        cases h1 : expand d mem op1 <;> cases h2 : expand d mem op2 <;> simp [h1, h2] at h
        subst h
        simp only [getTypeAt_of_expand h1, getTypeAt_of_expand h2, ih mem _ _ h1,
          ih mem _ _ h2, printFormula]
      | Iff op1 op2 =>
        cases h1 : expand d mem op1 <;> cases h2 : expand d mem op2 <;> simp [h1, h2] at h
        subst h
        simp only [getTypeAt_of_expand h1, getTypeAt_of_expand h2, ih mem _ _ h1,
          ih mem _ _ h2, printFormula]

theorem expand_mono_succ (d : Nat) :
    ∀ (mem : List Node) (p : Nat) (f : Formula), expand d mem p = some f →
      expand (d + 1) mem p = some f := by
  induction d with
  | zero => intro mem p f h; simp [expand] at h
  | succ d ih =>
    intro mem p f h
    rw [expand] at h ⊢
    cases hn : mem[p]? with
    | none => simp [hn] at h
    | some node =>
      simp only [hn] at h ⊢
      cases node with
      | True => exact h
      | False => exact h
      | Atom var => exact h
      | Not op =>
        cases h1 : expand d mem op with
        | none => simp [h1] at h
        | some g => simp only [h1] at h; simp only [ih mem op g h1]; exact h
      | And op1 op2 =>
        cases h1 : expand d mem op1 <;> cases h2 : expand d mem op2 <;> simp [h1, h2] at h
        simp only [ih mem _ _ h1, ih mem _ _ h2, h]
      | Or op1 op2 =>
        cases h1 : expand d mem op1 <;> cases h2 : expand d mem op2 <;> simp [h1, h2] at h
        simp only [ih mem _ _ h1, ih mem _ _ h2, h]
      | Imp op1 op2 =>
        cases h1 : expand d mem op1 <;> cases h2 : expand d mem op2 <;> simp [h1, h2] at h
        simp only [ih mem _ _ h1, ih mem _ _ h2, h]
      | Iff op1 op2 =>
        cases h1 : expand d mem op1 <;> cases h2 : expand d mem op2 <;> simp [h1, h2] at h
        simp only [ih mem _ _ h1, ih mem _ _ h2, h]

theorem expand_mono {d k : Nat} (hk : d ≤ k) {mem : List Node} {p : Nat} {f : Formula}
    (h : expand d mem p = some f) : expand k mem p = some f := by
  induction hk with
  | refl => exact h
  | step _ ih => exact expand_mono_succ _ mem p f ih

/-- In a memory built bottom-up every reference stands for a tree, reached within as
many nested steps as the position of the node. -/
theorem expand_total (mem : List Node) (hm : builtBottomUp mem) :
    ∀ p, p < mem.length → ∃ f, expand (p + 1) mem p = some f := by
  intro p
  induction p using Nat.strong_induction_on with
  | _ p ih =>
    intro hp
    have hn : mem[p]? = some mem[p] := List.getElem?_eq_getElem hp
    have hops := hm p mem[p] hn
    have sub : ∀ q, q ∈ (mem[p]).operands → ∃ g, expand p mem q = some g := by
      intro q hq
      have hq1 := hops q hq
      obtain ⟨g, hg⟩ := ih q hq1 (by omega)
      exact ⟨g, expand_mono (by omega) hg⟩
    rw [expand]
    cases hnode : mem[p] with
    | True => exact ⟨.True, by simp [hn, hnode]⟩
    | False => exact ⟨.False, by simp [hn, hnode]⟩
    | Atom var => exact ⟨.Atom var, by simp [hn, hnode]⟩
    | Not op =>
      obtain ⟨g, hg⟩ := sub op (by simp [hnode, Node.operands])
      exact ⟨.Not g, by simp [hn, hnode, hg]⟩
    | And op1 op2 =>
      obtain ⟨g1, hg1⟩ := sub op1 (by simp [hnode, Node.operands])
      obtain ⟨g2, hg2⟩ := sub op2 (by simp [hnode, Node.operands])
      exact ⟨.And g1 g2, by simp [hn, hnode, hg1, hg2]⟩
    | Or op1 op2 =>
      obtain ⟨g1, hg1⟩ := sub op1 (by simp [hnode, Node.operands])
      obtain ⟨g2, hg2⟩ := sub op2 (by simp [hnode, Node.operands])
      exact ⟨.Or g1 g2, by simp [hn, hnode, hg1, hg2]⟩
    | Imp op1 op2 =>
      obtain ⟨g1, hg1⟩ := sub op1 (by simp [hnode, Node.operands])
      obtain ⟨g2, hg2⟩ := sub op2 (by simp [hnode, Node.operands])
      exact ⟨.Imp g1 g2, by simp [hn, hnode, hg1, hg2]⟩
    | Iff op1 op2 =>
      obtain ⟨g1, hg1⟩ := sub op1 (by simp [hnode, Node.operands])
      obtain ⟨g2, hg2⟩ := sub op2 (by simp [hnode, Node.operands])
      exact ⟨.Iff g1 g2, by simp [hn, hnode, hg1, hg2]⟩

theorem printFormula_append (f : Formula) (ostr : String) :
    printFormula f ostr = ostr ++ printFormula f "" := by
  apply String.ext
  simp [printFormula_data]

/-! ## The claims on totality, type tags, the sink and the accessors -/

/-- C11: printing is total. With nested calls bounded by `d`, `printFormula` returns
its text exactly when `d` is at least the height of the tree, so the depth of the
recursion is the height; and through references, in any memory built bottom-up (no
null or dangling reference, no cycle), printing from any node returns the text of the
tree the node stands for. No branch of the printer fails. -/
theorem C11_printing_total (f : Formula) (ostr : String) :
    (∀ d, printFormulaDepth d f ostr =
        if height f ≤ d then some (printFormula f ostr) else none) ∧
      printFormulaDepth (height f) f ostr = some (printFormula f ostr) ∧
      (∀ mem p, builtBottomUp mem → p < mem.length →
        ∃ g, expand (p + 1) mem p = some g ∧
          printFormulaAt (p + 1) mem p ostr = some (printFormula g ostr)) := by
  refine ⟨fun d => printFormulaDepth_eq f d ostr, ?_, ?_⟩
  · rw [printFormulaDepth_eq]; simp
  · intro mem p hm hp
    obtain ⟨g, hg⟩ := expand_total mem hm p hp
    exact ⟨g, hg, printFormulaAt_of_expand _ mem p g hg ostr⟩

theorem C11_printing_total_witness :
    ∃ g, expand (2 + 1) [Node.Atom "p", Node.Not 0, Node.And 1 0] 2 = some g ∧
      printFormulaAt (2 + 1) [Node.Atom "p", Node.Not 0, Node.And 1 0] 2 "" =
        some (printFormula g "") :=
  (C11_printing_total .True "").2.2 [Node.Atom "p", Node.Not 0, Node.And 1 0] 2
    (by
      intro p node h q hq
      rcases p with _ | _ | _ | p
      · simp at h; subst h; simp [Node.operands] at hq
      · simp at h; subst h; simp [Node.operands] at hq; omega
      · simp at h; subst h; simp [Node.operands] at hq; omega
      · simp at h)
    (by decide)

/-- C12: `getType` is total and returns the tag of the constructor of the node; the
result is always one of the eight tags of the concrete classes, never `T_FORALL` or
`T_EXISTS`. -/
theorem C12_type_tag (f g : Formula) (var : String) :
    getType .True = T_TRUE ∧ getType .False = T_FALSE ∧ getType (.Atom var) = T_ATOM ∧
      getType (.Not f) = T_NOT ∧ getType (.And f g) = T_AND ∧ getType (.Or f g) = T_OR ∧
      getType (.Imp f g) = T_IMP ∧ getType (.Iff f g) = T_IFF ∧
      getType f ∈ [T_TRUE, T_FALSE, T_ATOM, T_NOT, T_AND, T_OR, T_IMP, T_IFF] ∧
      getType f ≠ T_FORALL ∧ getType f ≠ T_EXISTS := by
  refine ⟨rfl, rfl, rfl, rfl, rfl, rfl, rfl, rfl, ?_, ?_, ?_⟩ <;> cases f <;> simp [getType]

/-- C13: what `printFormula` appends is a function of the tree alone: the sink keeps
its prior content as a prefix and receives the text printed into an empty sink;
printing twice appends that text twice; and any reference, in any memory, that stands
for the tree (whether its equal subtrees are one shared node or distinct nodes) prints
that same text. -/
theorem C13_sink_independence (f : Formula) (ostr : String) :
    printFormula f ostr = ostr ++ printFormula f "" ∧
      printFormula f (printFormula f ostr) = ostr ++ printFormula f "" ++ printFormula f "" ∧
      (∀ d mem p, expand d mem p = some f →
        printFormulaAt d mem p ostr = some (ostr ++ printFormula f "")) := by
  refine ⟨printFormula_append f ostr, ?_, ?_⟩
  · rw [printFormula_append f (printFormula f ostr), printFormula_append f ostr]
  · intro d mem p h
    rw [printFormulaAt_of_expand d mem p f h ostr, printFormula_append f ostr]

theorem C13_sink_independence_witness :
    printFormulaAt 2 [Node.Atom "p", Node.And 0 0] 1 "x: " =
        some ("x: " ++ printFormula (.And (.Atom "p") (.Atom "p")) "") ∧
      printFormulaAt 2 [Node.Atom "p", Node.Atom "p", Node.And 1 0] 2 "x: " =
        some ("x: " ++ printFormula (.And (.Atom "p") (.Atom "p")) "") :=
  ⟨(C13_sink_independence (.And (.Atom "p") (.Atom "p")) "x: ").2.2 2
      [Node.Atom "p", Node.And 0 0] 1 (by decide),
    (C13_sink_independence (.And (.Atom "p") (.Atom "p")) "x: ").2.2 2
      [Node.Atom "p", Node.Atom "p", Node.And 1 0] 2 (by decide)⟩

/-- C14: the constructors store their operands unchanged: `getOperand` of `Not(f)` is
`f`, and for `And`, `Or`, `Imp`, `Iff` built from `l` and `r`, `getOperand1` is `l` and
`getOperand2` is `r`; an atom keeps its name. -/
theorem C14_constructors_store_operands (f l r : Formula) (var : String) :
    getOperand (.Not f) = some f ∧
      getOperand1 (.And l r) = some l ∧ getOperand2 (.And l r) = some r ∧
      getOperand1 (.Or l r) = some l ∧ getOperand2 (.Or l r) = some r ∧
      getOperand1 (.Imp l r) = some l ∧ getOperand2 (.Imp l r) = some r ∧
      getOperand1 (.Iff l r) = some l ∧ getOperand2 (.Iff l r) = some r ∧
      getVariable (.Atom var) = some var :=
  ⟨rfl, rfl, rfl, rfl, rfl, rfl, rfl, rfl, rfl, rfl⟩

/-- C16: `Iff` never parenthesizes its left operand: whatever `l` is, the text of
`Iff(l, r)` is the bare text of `l`, then ` <=> `, then the text of `r`, in
parentheses exactly when `r` is an `Iff` node. -/
theorem C16_iff_left_operand_bare (l r : Formula) (ostr : String) :
    printFormula (.Iff l r) ostr =
        printFormula l ostr ++ " <=> " ++
          parenthesized (decide (getType r = T_IFF)) (printFormula r "") ∧
      printFormula (.Iff (.Iff (.Atom "a") (.Atom "b")) (.Atom "c")) "" = "a <=> b <=> c" ∧
      printFormula (.Iff (.Imp (.Atom "a") (.Atom "b")) (.Atom "c")) "" = "a => b <=> c" ∧
      printFormula (.Iff (.Atom "a") (.Iff (.Atom "b") (.Atom "c"))) "" = "a <=> (b <=> c)" ∧
      printFormula (.Iff (.Atom "a") (.Imp (.Atom "b") (.Atom "c"))) "" = "a <=> b => c" := by
  refine ⟨?_, by decide, by decide, by decide, by decide⟩
  have h5 : decide (5 < rank l) = false := by
    have := rank_le_five l
    simp; omega
  have a4 : decide (getType r = T_IFF) = decide (4 < rank r) := by simp only [type_gt4]
  apply String.ext
  simp only [String.data_append, printFormula_data, printFormula_empty_data,
    parenthesized_data, chars, h5, a4, wrap, Bool.false_eq_true, if_false,
    List.append_assoc]
  rfl

/-! ## Chains, balance and the places of parentheses -/

theorem print_left_step (sep : String) (mk : Formula → Formula → Formula) (p : Nat)
    (hmk : ∀ l r, chars (mk l r) = wrap (decide (p < rank l)) (chars l) ++ sep.data
      ++ wrap (decide (p - 1 < rank r)) (chars r))
    (t y : Formula) (ht : rank t ≤ p) (hy : isLeaf y = true) :
    printFormula (mk t y) "" = printFormula t "" ++ sep ++ printFormula y "" := by
  have h1 : decide (p < rank t) = false := by simp; omega
  have h2 : decide (p - 1 < rank y) = false := by
    cases y <;> simp [isLeaf] at hy <;> simp [rank]
  apply String.ext
  simp [printFormula_empty_data, hmk, h1, h2, wrap]

/-- A left-nested chain over leaves prints as the texts joined by the separator. -/
theorem print_left_chain (sep : String) (mk : Formula → Formula → Formula) (p : Nat)
    (hmk : ∀ l r, chars (mk l r) = wrap (decide (p < rank l)) (chars l) ++ sep.data
      ++ wrap (decide (p - 1 < rank r)) (chars r))
    (hrank : ∀ l r, rank (mk l r) = p) (xs : List Formula) :
    ∀ t, rank t ≤ p → (∀ y ∈ xs, isLeaf y = true) →
      printFormula (xs.foldl mk t) "" =
        String.intercalate.go (printFormula t "") sep (xs.map (fun y => printFormula y "")) := by
  induction xs with
  | nil => intro t _ _; simp [String.intercalate.go]
  | cons y ys ih =>
    intro t ht hys
    have hy : isLeaf y = true := hys y (by simp)
    simp only [List.foldl_cons, List.map_cons, String.intercalate.go]
    rw [ih (mk t y) (by rw [hrank]) (fun z hz => hys z (by simp [hz])),
      print_left_step sep mk p hmk t y ht hy]

theorem rank_leaf {x : Formula} (h : isLeaf x = true) : rank x = 0 := by
  cases x <;> simp [isLeaf] at h <;> rfl

theorem count_wrap (c : Char) (b : Bool) (s : List Char) :
    (wrap b s).count c =
      s.count c + (if b = true ∧ c = '(' then 1 else 0) + (if b = true ∧ c = ')' then 1 else 0) := by
  cases b with
  | false => simp [wrap]
  | true =>
    simp only [wrap, if_true, List.count_cons, List.count_append, List.count_nil, true_and,
      beq_iff_eq]
    by_cases h1 : c = '(' <;> by_cases h2 : c = ')' <;> simp [h1, h2, eq_comm]

theorem balanced_of_not_mem {s : List Char} (h1 : '(' ∉ s) (h2 : ')' ∉ s) : balanced s := by
  refine ⟨by rw [List.count_eq_zero_of_not_mem h1, List.count_eq_zero_of_not_mem h2], ?_⟩
  intro pre post e
  have : ')' ∉ pre := fun hm => h2 (by rw [e]; exact List.mem_append_left _ hm)
  rw [List.count_eq_zero_of_not_mem this]
  exact Nat.zero_le _

theorem balanced_append {a b : List Char} (ha : balanced a) (hb : balanced b) :
    balanced (a ++ b) := by
  obtain ⟨a1, a2⟩ := ha
  obtain ⟨b1, b2⟩ := hb
  refine ⟨by rw [List.count_append, List.count_append, a1, b1], ?_⟩
  intro pre post e
  rcases List.append_eq_append_iff.1 e with ⟨m, rfl, h2⟩ | ⟨m, h1, -⟩
  · have := b2 m post h2
    rw [List.count_append, List.count_append, a1]
    omega
  · exact a2 pre m h1

theorem balanced_wrap {s : List Char} (b : Bool) (hs : balanced s) : balanced (wrap b s) := by
  cases b with
  | false => simpa [wrap] using hs
  | true =>
    obtain ⟨s1, s2⟩ := hs
    refine ⟨by simp [wrap, List.count_cons, List.count_append, s1], ?_⟩
    intro pre post e
    cases pre with
    | nil => simp
    | cons c pre =>
      simp only [wrap, if_true, List.cons_append, List.cons.injEq] at e
      obtain ⟨rfl, e⟩ := e
      rcases List.append_eq_append_iff.1 e with ⟨m, rfl, h2⟩ | ⟨m, h1, -⟩
      · have hm : m.count ')' ≤ 1 := by
          have := congrArg (List.count ')') h2
          simp [List.count_append] at this
          omega
        simp only [List.count_cons, List.count_append, s1]
        simp
        omega
      · have := s2 pre m h1
        simp only [List.count_cons]
        simp
        omega

/-- The text of a formula whose atom names hold no parenthesis is balanced. -/
theorem balanced_chars (f : Formula) :
    (∀ name ∈ atoms f, '(' ∉ name.data ∧ ')' ∉ name.data) → balanced (chars f) := by
  have bin : ∀ (b1 b2 : Bool) (sep a b : List Char), '(' ∉ sep → ')' ∉ sep →
      balanced a → balanced b → balanced (wrap b1 a ++ sep ++ wrap b2 b) :=
    fun b1 b2 sep a b h1 h2 ha hb =>
      balanced_append (balanced_append (balanced_wrap b1 ha) (balanced_of_not_mem h1 h2))
        (balanced_wrap b2 hb)
  induction f with
  | True => intro _; exact balanced_of_not_mem (by decide) (by decide)
  | False => intro _; exact balanced_of_not_mem (by decide) (by decide)
  | Atom var =>
    intro h
    exact balanced_of_not_mem (h var (by simp [atoms])).1 (h var (by simp [atoms])).2
  | Not op ih =>
    intro h
    have h1 : balanced ['~'] := balanced_of_not_mem (by decide) (by decide)
    exact balanced_append h1 (balanced_wrap _ (ih h))
  | And op1 op2 ih1 ih2 =>
    intro h
    exact bin _ _ _ _ _ (by decide) (by decide)
      (ih1 (fun n hn => h n (by simp [atoms, hn]))) (ih2 (fun n hn => h n (by simp [atoms, hn])))
  | Or op1 op2 ih1 ih2 =>
    intro h
    exact bin _ _ _ _ _ (by decide) (by decide)
      (ih1 (fun n hn => h n (by simp [atoms, hn]))) (ih2 (fun n hn => h n (by simp [atoms, hn])))
  | Imp op1 op2 ih1 ih2 =>
    intro h
    exact bin _ _ _ _ _ (by decide) (by decide)
      (ih1 (fun n hn => h n (by simp [atoms, hn]))) (ih2 (fun n hn => h n (by simp [atoms, hn])))
  | Iff op1 op2 ih1 ih2 =>
    intro h
    exact bin _ _ _ _ _ (by decide) (by decide)
      (ih1 (fun n hn => h n (by simp [atoms, hn]))) (ih2 (fun n hn => h n (by simp [atoms, hn])))

theorem count_wrap_le (c : Char) (hc : c = '(' ∨ c = ')') (b : Bool) (s : List Char) :
    (wrap b s).count c ≤ s.count c + (if b = true then 1 else 0) := by
  rw [count_wrap]
  rcases hc with rfl | rfl <;> cases b <;> simp

theorem isBinary_of_lt {p : Nat} (hp : 1 ≤ p) {f : Formula}
    (h : decide (p < rank f) = true) : isBinary f = true := by
  rw [isBinary_eq]
  simp only [decide_eq_true_eq] at h ⊢
  omega

/-- The printer emits at most one parenthesis of each kind per binary node below the
root, and none for the root. -/
theorem count_paren_le (c : Char) (hc : c = '(' ∨ c = ')') (f : Formula) :
    (∀ name ∈ atoms f, c ∉ name.data) →
      (chars f).count c + (if isBinary f = true then 1 else 0) ≤ binaryNodes f := by
  have bin : ∀ (b1 b2 : Bool) (sep : List Char) (l r : Formula), c ∉ sep →
      (b1 = true → isBinary l = true) → (b2 = true → isBinary r = true) →
      (chars l).count c + (if isBinary l = true then 1 else 0) ≤ binaryNodes l →
      (chars r).count c + (if isBinary r = true then 1 else 0) ≤ binaryNodes r →
      (wrap b1 (chars l) ++ sep ++ wrap b2 (chars r)).count c + 1
        ≤ binaryNodes l + binaryNodes r + 1 := by
    intro b1 b2 sep l r hsep h1 h2 hl hr
    have e1 := count_wrap_le c hc b1 (chars l)
    have e2 := count_wrap_le c hc b2 (chars r)
    have k1 : (if b1 = true then 1 else 0) ≤ (if isBinary l = true then 1 else 0) := by
      cases b1 <;> simp
      simp [h1 rfl]
    have k2 : (if b2 = true then 1 else 0) ≤ (if isBinary r = true then 1 else 0) := by
      cases b2 <;> simp
      simp [h2 rfl]
    rw [List.count_append, List.count_append, List.count_eq_zero_of_not_mem hsep]
    omega
  have hne : c ∉ ['~'] ∧ c ∉ ['t', 'r', 'u', 'e'] ∧ c ∉ ['f', 'a', 'l', 's', 'e'] ∧
      c ∉ [' ', '&', ' '] ∧ c ∉ [' ', '|', ' '] ∧ c ∉ [' ', '=', '>', ' '] ∧
      c ∉ [' ', '<', '=', '>', ' '] := by
    rcases hc with rfl | rfl <;> decide
  obtain ⟨n1, n2, n3, n4, n5, n6, n7⟩ := hne
  induction f with
  | True => intro _; simp [chars, isBinary, binaryNodes, List.count_eq_zero_of_not_mem n2]
  | False => intro _; simp [chars, isBinary, binaryNodes, List.count_eq_zero_of_not_mem n3]
  | Atom var =>
    intro h
    simp [chars, isBinary, binaryNodes, List.count_eq_zero_of_not_mem (h var (by simp [atoms]))]
  | Not op ih =>
    intro h
    have e1 := count_wrap_le c hc (decide (1 < rank op)) (chars op)
    have k1 : (if decide (1 < rank op) = true then 1 else 0)
        ≤ (if isBinary op = true then 1 else 0) := by
      rw [isBinary_eq]
    have := ih h
    have e0 : (chars (Formula.Not op)).count c
        = (wrap (decide (1 < rank op)) (chars op)).count c := by
      show (['~'] ++ wrap (decide (1 < rank op)) (chars op)).count c = _
      rw [List.count_append, List.count_eq_zero_of_not_mem n1, Nat.zero_add]
    simp only [e0, isBinary, Bool.false_eq_true, if_false, binaryNodes]
    omega
  | And op1 op2 ih1 ih2 =>
    intro h
    exact bin _ _ _ op1 op2 n4 (isBinary_of_lt (by omega)) (isBinary_of_lt (by omega))
      (ih1 (fun n hn => h n (by simp [atoms, hn]))) (ih2 (fun n hn => h n (by simp [atoms, hn])))
  | Or op1 op2 ih1 ih2 =>
    intro h
    exact bin _ _ _ op1 op2 n5 (isBinary_of_lt (by omega)) (isBinary_of_lt (by omega))
      (ih1 (fun n hn => h n (by simp [atoms, hn]))) (ih2 (fun n hn => h n (by simp [atoms, hn])))
  | Imp op1 op2 ih1 ih2 =>
    intro h
    exact bin _ _ _ op1 op2 n6 (isBinary_of_lt (by omega)) (isBinary_of_lt (by omega))
      (ih1 (fun n hn => h n (by simp [atoms, hn]))) (ih2 (fun n hn => h n (by simp [atoms, hn])))
  | Iff op1 op2 ih1 ih2 =>
    intro h
    exact bin _ _ _ op1 op2 n7 (isBinary_of_lt (by omega)) (isBinary_of_lt (by omega))
      (ih1 (fun n hn => h n (by simp [atoms, hn]))) (ih2 (fun n hn => h n (by simp [atoms, hn])))

/-- The text of a binary node: each operand, wrapped or not, around the separator; an
operand is wrapped only if it is a binary node. -/
theorem binary_text (sep : String) (mk : Formula → Formula → Formula) (p : Nat) (hp : 2 ≤ p)
    (hmk : ∀ l r, chars (mk l r) = wrap (decide (p < rank l)) (chars l) ++ sep.data
      ++ wrap (decide (p - 1 < rank r)) (chars r)) (l r : Formula) :
    ∃ b1 b2, (b1 = true → isBinary l = true) ∧ (b2 = true → isBinary r = true) ∧
      printFormula (mk l r) "" =
        parenthesized b1 (printFormula l "") ++ sep ++ parenthesized b2 (printFormula r "") := by
  refine ⟨decide (p < rank l), decide (p - 1 < rank r), isBinary_of_lt (by omega),
    isBinary_of_lt (by omega), ?_⟩
  apply String.ext
  simp [printFormula_empty_data, parenthesized_data, hmk]

theorem leaf_chars_not_mem (c : Char) (hc : c = '(' ∨ c = ')') (y : Formula)
    (hy : isLeaf y = true) (hn : ∀ name ∈ atoms y, c ∉ name.data) : c ∉ chars y := by
  cases y <;> simp [isLeaf] at hy
  · rcases hc with rfl | rfl <;> decide
  · rcases hc with rfl | rfl <;> decide
  · exact hn _ (by simp [atoms])

/-- A left-nested chain over leaves whose names hold no parenthesis prints none. -/
theorem chain_no_paren (c : Char) (hc : c = '(' ∨ c = ')') (sep : List Char) (hsep : c ∉ sep)
    (mk : Formula → Formula → Formula) (p : Nat)
    (hmk : ∀ l r, chars (mk l r) = wrap (decide (p < rank l)) (chars l) ++ sep
      ++ wrap (decide (p - 1 < rank r)) (chars r))
    (hrank : ∀ l r, rank (mk l r) = p) (xs : List Formula) :
    ∀ t, rank t ≤ p → c ∉ chars t →
      (∀ y ∈ xs, isLeaf y = true ∧ ∀ name ∈ atoms y, c ∉ name.data) →
      c ∉ chars (xs.foldl mk t) := by
  induction xs with
  | nil => intro t _ ht _; simpa using ht
  | cons y ys ih =>
    intro t hr ht hys
    obtain ⟨hy, hn⟩ := hys y (by simp)
    have h1 : decide (p < rank t) = false := by simp; omega
    have h2 : decide (p - 1 < rank y) = false := by simp [rank_leaf hy]
    refine ih (mk t y) (by rw [hrank]) ?_ (fun z hz => hys z (by simp [hz]))
    rw [hmk, h1, h2]
    simp only [wrap, Bool.false_eq_true, if_false, List.mem_append, not_or]
    exact ⟨⟨ht, hsep⟩, leaf_chars_not_mem c hc y hy hn⟩

/-! ## The claims on chains and on parentheses -/

/-- C15: a left-nested chain of one connective over leaves (atoms or constants) prints
as the texts of the leaves joined by the operator between single spaces and nothing
else: `And(And(a,b),c)` prints `a & b & c` and `Imp(Imp(a,b),c)` prints `a => b => c`;
when no atom name holds a parenthesis, the text holds none. -/
theorem C15_left_nested_chain_flat (x : Formula) (xs : List Formula)
    (hx : isLeaf x = true) (hxs : ∀ y ∈ xs, isLeaf y = true) :
    printFormula (xs.foldl Formula.And x) "" =
        " & ".intercalate ((x :: xs).map (fun y => printFormula y "")) ∧
      printFormula (xs.foldl Formula.Or x) "" =
        " | ".intercalate ((x :: xs).map (fun y => printFormula y "")) ∧
      printFormula (xs.foldl Formula.Imp x) "" =
        " => ".intercalate ((x :: xs).map (fun y => printFormula y "")) ∧
      printFormula (xs.foldl Formula.Iff x) "" =
        " <=> ".intercalate ((x :: xs).map (fun y => printFormula y "")) ∧
      printFormula (.And (.And (.Atom "a") (.Atom "b")) (.Atom "c")) "" = "a & b & c" ∧
      printFormula (.Imp (.Imp (.Atom "a") (.Atom "b")) (.Atom "c")) "" = "a => b => c" ∧
      ((∀ y ∈ x :: xs, ∀ name ∈ atoms y, '(' ∉ name.data ∧ ')' ∉ name.data) →
        ∀ mk ∈ [Formula.And, Formula.Or, Formula.Imp, Formula.Iff],
          '(' ∉ (printFormula (xs.foldl mk x) "").data ∧
            ')' ∉ (printFormula (xs.foldl mk x) "").data) := by
  have h0 : rank x = 0 := rank_leaf hx
  refine ⟨?_, ?_, ?_, ?_, by decide, by decide, ?_⟩
  · exact print_left_chain " & " Formula.And 2 (fun _ _ => rfl) (fun _ _ => rfl) xs x
      (by omega) hxs
  · exact print_left_chain " | " Formula.Or 3 (fun _ _ => rfl) (fun _ _ => rfl) xs x
      (by omega) hxs
  · exact print_left_chain " => " Formula.Imp 4 (fun _ _ => rfl) (fun _ _ => rfl) xs x
      (by omega) hxs
  · exact print_left_chain " <=> " Formula.Iff 5 (fun _ _ => rfl) (fun _ _ => rfl) xs x
      (by omega) hxs
  · intro hn mk hmk
    have key : ∀ c, c = '(' ∨ c = ')' → (∀ y ∈ x :: xs, ∀ name ∈ atoms y, c ∉ name.data) →
        c ∉ (printFormula (xs.foldl mk x) "").data := by
      intro c hc hc1
      have hx1 : c ∉ chars x := leaf_chars_not_mem c hc x hx (hc1 x (by simp))
      have hxs1 : ∀ y ∈ xs, isLeaf y = true ∧ ∀ name ∈ atoms y, c ∉ name.data :=
        fun y hy => ⟨hxs y hy, hc1 y (by simp [hy])⟩
      rw [printFormula_empty_data]
      simp only [List.mem_cons, List.mem_singleton, List.not_mem_nil, or_false] at hmk
      rcases hmk with rfl | rfl | rfl | rfl
      · exact chain_no_paren c hc [' ', '&', ' '] (by rcases hc with rfl | rfl <;> decide)
          Formula.And 2 (fun _ _ => rfl) (fun _ _ => rfl) xs x (by omega) hx1 hxs1
      · exact chain_no_paren c hc [' ', '|', ' '] (by rcases hc with rfl | rfl <;> decide)
          Formula.Or 3 (fun _ _ => rfl) (fun _ _ => rfl) xs x (by omega) hx1 hxs1
      · exact chain_no_paren c hc [' ', '=', '>', ' ']
          (by rcases hc with rfl | rfl <;> decide)
          Formula.Imp 4 (fun _ _ => rfl) (fun _ _ => rfl) xs x (by omega) hx1 hxs1
      · exact chain_no_paren c hc [' ', '<', '=', '>', ' ']
          (by rcases hc with rfl | rfl <;> decide)
          Formula.Iff 5 (fun _ _ => rfl) (fun _ _ => rfl) xs x (by omega) hx1 hxs1
    exact ⟨key '(' (Or.inl rfl) (fun y hy n hnn => (hn y hy n hnn).1),
      key ')' (Or.inr rfl) (fun y hy n hnn => (hn y hy n hnn).2)⟩

theorem C15_left_nested_chain_flat_witness :
    printFormula ([Formula.True, .Atom "q", .False].foldl Formula.Or (.Atom "p")) "" =
        " | ".intercalate
          ((Formula.Atom "p" :: [Formula.True, .Atom "q", .False]).map
            (fun y => printFormula y "")) ∧
      '(' ∉ (printFormula ([Formula.True, .Atom "q", .False].foldl Formula.Or (.Atom "p"))
        "").data :=
  ⟨(C15_left_nested_chain_flat (.Atom "p") [Formula.True, .Atom "q", .False] (by decide)
      (by decide)).2.1,
    ((C15_left_nested_chain_flat (.Atom "p") [Formula.True, .Atom "q", .False] (by decide)
      (by decide)).2.2.2.2.2.2 (by decide) Formula.Or (by simp)).1⟩

/-- C17: for every formula whose atom names hold no parenthesis, the rendering has as
many `(` as `)`, and no beginning of it holds more `)` than `(`. -/
theorem C17_balanced_parentheses (f : Formula)
    (h : ∀ name ∈ atoms f, '(' ∉ name.data ∧ ')' ∉ name.data) :
    (printFormula f "").data.count '(' = (printFormula f "").data.count ')' ∧
      ∀ pre post, (printFormula f "").data = pre ++ post →
        pre.count ')' ≤ pre.count '(' := by
  rw [printFormula_empty_data]
  exact balanced_chars f h

theorem C17_balanced_parentheses_witness :
    (printFormula (.And (.Not (.Or (.Atom "a") (.Atom "b"))) (.And (.Atom "c") .True))
        "").data.count '(' =
      (printFormula (.And (.Not (.Or (.Atom "a") (.Atom "b"))) (.And (.Atom "c") .True))
        "").data.count ')' ∧
      ∀ pre post,
        (printFormula (.And (.Not (.Or (.Atom "a") (.Atom "b"))) (.And (.Atom "c") .True))
          "").data = pre ++ post → pre.count ')' ≤ pre.count '(' :=
  C17_balanced_parentheses
    (.And (.Not (.Or (.Atom "a") (.Atom "b"))) (.And (.Atom "c") .True)) (by decide)

/-- C18: parentheses only ever wrap binary connectives. Under `Not` and on either side
of `And`, `Or`, `Imp`, `Iff`, the text of an operand is bare or inside one pair of
parentheses, and inside a pair only if the operand is a binary node; and when no atom
name holds a parenthesis, the text has at most one `(` and one `)` per binary node other
than the root, so that the root itself is not wrapped. -/
theorem C18_parentheses_only_around_binary (f l r : Formula) :
    (∃ b, (b = true → isBinary f = true) ∧
        printFormula (.Not f) "" = "~" ++ parenthesized b (printFormula f "")) ∧
      (∃ b1 b2, (b1 = true → isBinary l = true) ∧ (b2 = true → isBinary r = true) ∧
        printFormula (.And l r) "" =
          parenthesized b1 (printFormula l "") ++ " & " ++ parenthesized b2 (printFormula r "")) ∧
      (∃ b1 b2, (b1 = true → isBinary l = true) ∧ (b2 = true → isBinary r = true) ∧
        printFormula (.Or l r) "" =
          parenthesized b1 (printFormula l "") ++ " | " ++ parenthesized b2 (printFormula r "")) ∧
      (∃ b1 b2, (b1 = true → isBinary l = true) ∧ (b2 = true → isBinary r = true) ∧
        printFormula (.Imp l r) "" =
          parenthesized b1 (printFormula l "") ++ " => " ++ parenthesized b2 (printFormula r "")) ∧
      (∃ b1 b2, (b1 = true → isBinary l = true) ∧ (b2 = true → isBinary r = true) ∧
        printFormula (.Iff l r) "" =
          parenthesized b1 (printFormula l "") ++ " <=> " ++
            parenthesized b2 (printFormula r "")) ∧
      ((∀ name ∈ atoms f, '(' ∉ name.data ∧ ')' ∉ name.data) →
        (printFormula f "").data.count '(' + (if isBinary f = true then 1 else 0)
            ≤ binaryNodes f ∧
          (printFormula f "").data.count ')' + (if isBinary f = true then 1 else 0)
            ≤ binaryNodes f) := by
  refine ⟨⟨isBinary f, id, ?_⟩, ?_, ?_, ?_, ?_, ?_⟩
  · apply String.ext
    simp only [String.data_append, printFormula_empty_data, parenthesized_data, chars,
      isBinary_eq]
    rfl
  · exact binary_text " & " Formula.And 2 (by omega) (fun _ _ => rfl) l r
  · exact binary_text " | " Formula.Or 3 (by omega) (fun _ _ => rfl) l r
  · exact binary_text " => " Formula.Imp 4 (by omega) (fun _ _ => rfl) l r
  · exact binary_text " <=> " Formula.Iff 5 (by omega) (fun _ _ => rfl) l r
  · intro h
    rw [printFormula_empty_data]
    exact ⟨count_paren_le '(' (Or.inl rfl) f (fun n hn => (h n hn).1),
      count_paren_le ')' (Or.inr rfl) f (fun n hn => (h n hn).2)⟩

theorem C18_parentheses_only_around_binary_witness :
    (printFormula (.Or (.And (.Atom "a") (.Imp (.Atom "b") (.Atom "c"))) (.Not (.Atom "d")))
        "").data.count '(' + (if isBinary (.Or (.And (.Atom "a") (.Imp (.Atom "b") (.Atom "c")))
          (.Not (.Atom "d"))) = true then 1 else 0)
        ≤ binaryNodes (.Or (.And (.Atom "a") (.Imp (.Atom "b") (.Atom "c"))) (.Not (.Atom "d"))) ∧
      (printFormula (.Or (.And (.Atom "a") (.Imp (.Atom "b") (.Atom "c"))) (.Not (.Atom "d")))
        "").data.count ')' + (if isBinary (.Or (.And (.Atom "a") (.Imp (.Atom "b") (.Atom "c")))
          (.Not (.Atom "d"))) = true then 1 else 0)
        ≤ binaryNodes (.Or (.And (.Atom "a") (.Imp (.Atom "b") (.Atom "c"))) (.Not (.Atom "d"))) :=
  (C18_parentheses_only_around_binary
    (.Or (.And (.Atom "a") (.Imp (.Atom "b") (.Atom "c"))) (.Not (.Atom "d"))) .True
    .True).2.2.2.2.2 (by decide)

end FOL
